import Mathlib

/-!
Verification of the A* pathfinding implementation (AStar.ts): weighted grid
graph, binary min-heap priority queue, and the A* search driver.

The shallow embedding below follows the TypeScript source closely:
numbers are modelled as rationals, in-place node mutation is modelled by
threading a total map from positions to transient node state, and the
unbounded while loops of the source are modelled with explicit fuel
(returning none when fuel runs out, which never happens for the concrete
runs and is excluded by hypothesis in the general theorems).
-/

/-- A grid position (the identity of one GridNode): its x and y coordinates. -/
abbrev Pos : Type := ℤ × ℤ

/-- The transient per-search annotation of one GridNode: f, g, h scores,
visited and closed flags, and the parent back-reference. -/
structure NodeTrans where
  f : ℚ
  g : ℚ
  h : ℚ
  visited : Bool
  closed : Bool
  parent : Option Pos
deriving DecidableEq

/-- The baseline transient state a node has after cleanNode. -/
def baselineNode : NodeTrans :=
  { f := 0, g := 0, h := 0, visited := false, closed := false, parent := none }

/-- The Graph class: the static weight grid and diagonal flag, the transient
state of every node (node objects are mutated in place in the source, so the
transient state is a map from positions), and the dirty list. -/
structure Graph where
  grid : List (List ℚ)
  diagonal : Bool
  trans : Pos → NodeTrans
  dirtyNodes : List Pos

/-- Weight cell lookup: some w when the position is in bounds (the source
tests grid[x] && grid[x][y], and every constructed node object is truthy,
so existence is exactly in-boundedness). -/
def cellAt (G : Graph) (x y : ℤ) : Option ℚ :=
  if x < 0 ∨ y < 0 then none
  else match G.grid[x.toNat]? with
    | none => none
    | some row => row[y.toNat]?

/-- Whether a node exists at position p. -/
def Graph.hasNode (G : Graph) (p : Pos) : Bool := (cellAt G p.1 p.2).isSome

/-- The weight of the node at p (0 when out of bounds; the source only reads
weights of existing nodes). -/
def Graph.weight (G : Graph) (p : Pos) : ℚ := (cellAt G p.1 p.2).getD 0

/-- Replace the transient state of the node at p (in-place mutation in the
source). -/
def setTrans (G : Graph) (p : Pos) (t : NodeTrans) : Graph :=
  { G with trans := fun q => if q = p then t else G.trans q }

/-- AStar.cleanNode: reset one node to baseline. -/
def AStar.cleanNode (G : Graph) (p : Pos) : Graph := setTrans G p baselineNode

/-- Graph.markDirty: append a node to the dirty list (duplicates permitted). -/
def Graph.markDirty (G : Graph) (p : Pos) : Graph :=
  { G with dirtyNodes := G.dirtyNodes ++ [p] }

/-- Graph.cleanDirty: clean every node in the dirty list, then empty it. -/
def Graph.cleanDirty (G : Graph) : Graph :=
  { G.dirtyNodes.foldl AStar.cleanNode G with dirtyNodes := [] }

/-- One conditional neighbor inclusion: the singleton list when the position
is in bounds, else nothing (out of bounds is excluded without error). -/
def nCheck (G : Graph) (x y : ℤ) : List Pos :=
  if (cellAt G x y).isSome then [(x, y)] else []

/-- Graph.neighbors: in-bounds adjacent positions in the fixed source order
L, R, B (y-1), T (y+1) and, when diagonal is enabled, LB, RB, LT, RT. -/
def Graph.neighbors (G : Graph) (p : Pos) : List Pos :=
  nCheck G (p.1 - 1) p.2 ++ nCheck G (p.1 + 1) p.2 ++
  nCheck G p.1 (p.2 - 1) ++ nCheck G p.1 (p.2 + 1) ++
  (if G.diagonal then
    nCheck G (p.1 - 1) (p.2 - 1) ++ nCheck G (p.1 + 1) (p.2 - 1) ++
    nCheck G (p.1 - 1) (p.2 + 1) ++ nCheck G (p.1 + 1) (p.2 + 1)
  else [])

/-- AStar.isNodeWall: a node is a wall when its weight is 0. -/
def AStar.isNodeWall (G : Graph) (p : Pos) : Bool := decide (G.weight p = 0)

/-- AStar.getNodeCost: the cost of stepping onto node (scaled by the source
constant 1.41421 when the step from fromNeighbor is diagonal, i.e. both
coordinates differ). -/
def AStar.getNodeCost (G : Graph) (node : Pos) (fromNeighbor : Option Pos) : ℚ :=
  match fromNeighbor with
  | some q =>
    if q.1 ≠ node.1 ∧ q.2 ≠ node.2 then G.weight node * (141421 / 100000)
    else G.weight node
  | none => G.weight node

/-- Index of the parent of heap slot n (source: ((n + 1) >> 1) - 1). -/
def parentIdx (n : Nat) : Nat := (n + 1) / 2 - 1

/-- Array write with the JavaScript semantics used by BinaryHeap.remove:
writing one past the end appends. -/
def jsSet {α : Type} (l : List α) (i : Nat) (v : α) : List α :=
  if i < l.length then l.set i v else l ++ [v]

/-- The loop of BinaryHeap.sinkDown: the element is read once; while n > 0,
compare with the parent and swap upward. Fuel n suffices since the index
strictly decreases. -/
def BinaryHeap.sinkTo {α β : Type} [LinearOrder β] (score : α → β) (element : α) :
    Nat → List α → Nat → List α
  | 0, l, _ => l
  | fuel + 1, l, n =>
    if n = 0 then l
    else
      match l[parentIdx n]? with
      | none => l
      | some parent =>
        if score element < score parent then
          BinaryHeap.sinkTo score element fuel
            ((l.set (parentIdx n) element).set n parent) (parentIdx n)
        else l

/-- BinaryHeap.sinkDown: re-sort position n toward the root. -/
def BinaryHeap.sinkDown {α β : Type} [LinearOrder β] (score : α → β)
    (l : List α) (n : Nat) : List α :=
  match l[n]? with
  | none => l
  | some element => BinaryHeap.sinkTo score element n l n

/-- The swap choice of one BinaryHeap.bubbleUp iteration (source lines
436-458, with the swap1, cmp and swap2 locals merged into one case split):
child1 is prebooked when it scores below the element, then child2 overrides
when it scores below cmp, which is child1's score when child1 was prebooked
and the element's score otherwise. -/
def BinaryHeap.bubbleSwap {α β : Type} [LinearOrder β] (score : α → β)
    (elemScore : β) (l : List α) (n : Nat) : Option Nat :=
  match l[(n + 1) * 2 - 1]?, l[(n + 1) * 2]? with
  | none, none => none
  | some child1, none =>
    if score child1 < elemScore then some ((n + 1) * 2 - 1) else none
  | none, some child2 =>
    if score child2 < elemScore then some ((n + 1) * 2) else none
  | some child1, some child2 =>
    if score child1 < elemScore then
      if score child2 < score child1 then some ((n + 1) * 2)
      else some ((n + 1) * 2 - 1)
    else
      if score child2 < elemScore then some ((n + 1) * 2) else none

/-- The loop of BinaryHeap.bubbleUp: the element and its score are read once;
repeatedly swap with the chosen child while one scores lower. -/
def BinaryHeap.bubbleTo {α β : Type} [LinearOrder β] (score : α → β)
    (element : α) (elemScore : β) : Nat → List α → Nat → List α
  | 0, l, _ => l
  | fuel + 1, l, n =>
    match BinaryHeap.bubbleSwap score elemScore l n with
    | some sw =>
      match l[sw]? with
      | some childVal =>
        BinaryHeap.bubbleTo score element elemScore fuel
          ((l.set n childVal).set sw element) sw
      | none => l
    | none => l

/-- BinaryHeap.bubbleUp: re-sort position n away from the root. -/
def BinaryHeap.bubbleUp {α β : Type} [LinearOrder β] (score : α → β)
    (l : List α) (n : Nat) : List α :=
  match l[n]? with
  | none => l
  | some element => BinaryHeap.bubbleTo score element (score element) l.length l n

/-- BinaryHeap.push: append, then sink the new element toward the root. -/
def BinaryHeap.push {α β : Type} [LinearOrder β] (score : α → β)
    (l : List α) (e : α) : List α :=
  BinaryHeap.sinkDown score (l ++ [e]) l.length

/-- BinaryHeap.pop: return content[0] (undefined, i.e. none, when empty,
with no guard in the source), move the last element to the root and bubble. -/
def BinaryHeap.pop {α β : Type} [LinearOrder β] (score : α → β)
    (l : List α) : Option α × List α :=
  match l.getLast? with
  | none => (l.head?, l)
  | some e =>
    let rest := l.dropLast
    if 0 < rest.length then (l.head?, BinaryHeap.bubbleUp score (rest.set 0 e) 0)
    else (l.head?, rest)

/-- BinaryHeap.size. -/
def BinaryHeap.size {α : Type} (l : List α) : Nat := l.length

/-- BinaryHeap.remove, exactly as in the source: the removed slot is filled
with the popped last element, but the guard compares the index against
content.length - 1 read after the pop. Faithful for every heap that
contains the node (the absent-node case would hit JavaScript negative-index
semantics the source never exercises). -/
def BinaryHeap.remove {α β : Type} [DecidableEq α] [LinearOrder β] (score : α → β)
    (l : List α) (node : α) : List α :=
  match l.getLast? with
  | none => l
  | some e =>
    let i := l.indexOf node
    let rest := l.dropLast
    if (i : ℤ) = (rest.length : ℤ) - 1 then rest
    else
      let l2 := jsSet rest i e
      if score e < score node then BinaryHeap.sinkDown score l2 i
      else BinaryHeap.bubbleUp score l2 i

/-- BinaryHeap.rescoreElement: sink the node from its current position. -/
def BinaryHeap.rescoreElement {α β : Type} [DecidableEq α] [LinearOrder β]
    (score : α → β) (l : List α) (node : α) : List α :=
  BinaryHeap.sinkDown score l (l.indexOf node)

/-- The score function of the heap used by search (AStar.getHeap default):
a live read of the node's current f value. -/
def fScore (G : Graph) : Pos → ℚ := fun p => (G.trans p).f

/-- AStar.pathTo: walk parent links back from node, collecting nodes front
to back (the source unshifts). Fuel-limited; none when the chain is longer
than the fuel (impossible in actual runs). -/
def AStar.pathTo (G : Graph) : Nat → Pos → Option (List Pos)
  | 0, p =>
    match (G.trans p).parent with
    | none => some []
    | some _ => none
  | fuel + 1, p =>
    match (G.trans p).parent with
    | none => some []
    | some q => (AStar.pathTo G fuel q).map (fun l => l ++ [p])

/-- Mark the node at p closed. -/
def setClosed (G : Graph) (p : Pos) : Graph :=
  setTrans G p { G.trans p with closed := true }

/-- The state threaded through the search loop, with instrumentation logs:
pushLog records (position, visited flag before the relaxation, visited flag
after the push), popLog the popped positions, relaxLog the (position, h, g)
of every relaxation. -/
structure LoopState where
  graph : Graph
  heap : List Pos
  closestNode : Pos
  pushLog : List (Pos × Bool × Bool)
  popLog : List Pos
  relaxLog : List (Pos × ℚ × ℚ)
  dupFlag : Bool

/-- The outcome of a search: whether the goal was popped (found) or the
queue was exhausted, the returned path, the final graph, and the logs. -/
structure SearchRun where
  found : Bool
  path : List Pos
  graph : Graph
  pushLog : List (Pos × Bool × Bool)
  popLog : List Pos
  relaxLog : List (Pos × ℚ × ℚ)
  dupFlag : Bool

/-- The body of the inner neighbor loop of AStar.search (lines 84-116 of
the source): skip closed or wall neighbors; otherwise relax when unvisited
or strictly improving, update the closest candidate, and push or rescore. -/
def expandStep (heu : Pos → Pos → ℚ) (endPos : Pos) (closest : Bool)
    (cur : Pos) (s : LoopState) (neighbor : Pos) : LoopState :=
  let G := s.graph
  if (G.trans neighbor).closed = true ∨ AStar.isNodeWall G neighbor = true then s
  else
    let gScore := (G.trans cur).g + AStar.getNodeCost G neighbor (some cur)
    let beenVisited := (G.trans neighbor).visited
    if beenVisited = false ∨ gScore < (G.trans neighbor).g then
      let hVal := if (G.trans neighbor).h = 0 then heu neighbor endPos else (G.trans neighbor).h
      let G2 := Graph.markDirty (setTrans G neighbor
        { visited := true, parent := some cur, h := hVal, g := gScore,
          f := gScore + hVal, closed := (G.trans neighbor).closed }) neighbor
      let newClosest :=
        if closest = true then
          if hVal < (G2.trans s.closestNode).h ∨
              (hVal = (G2.trans s.closestNode).h ∧ gScore < (G2.trans s.closestNode).g) then
            neighbor
          else s.closestNode
        else s.closestNode
      if beenVisited = false then
        { graph := G2,
          heap := BinaryHeap.push (fScore G2) s.heap neighbor,
          closestNode := newClosest,
          pushLog := s.pushLog ++ [(neighbor, beenVisited, (G2.trans neighbor).visited)],
          popLog := s.popLog,
          relaxLog := s.relaxLog ++ [(neighbor, hVal, gScore)],
          dupFlag := s.dupFlag || decide (neighbor ∈ s.heap) }
      else
        { graph := G2,
          heap := BinaryHeap.rescoreElement (fScore G2) s.heap neighbor,
          closestNode := newClosest,
          pushLog := s.pushLog,
          popLog := s.popLog,
          relaxLog := s.relaxLog ++ [(neighbor, hVal, gScore)],
          dupFlag := s.dupFlag }
    else s

/-- The while loop of AStar.search. pathFuel bounds the parent walks of
pathTo; the outer fuel bounds the number of iterations. The source loop
checks size() > 0 before popping, so pop is only invoked on nonempty heaps. -/
def searchLoop (heu : Pos → Pos → ℚ) (endPos : Pos) (closest : Bool)
    (pathFuel : Nat) : Nat → LoopState → Option SearchRun
  | 0, _ => none
  | fuel + 1, s =>
    if 0 < BinaryHeap.size s.heap then
      match BinaryHeap.pop (fScore s.graph) s.heap with
      | (some cur, heap1) =>
        if cur = endPos then
          (AStar.pathTo s.graph pathFuel cur).map (fun pa =>
            { found := true, path := pa, graph := s.graph,
              pushLog := s.pushLog, popLog := s.popLog ++ [cur],
              relaxLog := s.relaxLog, dupFlag := s.dupFlag })
        else
          let G1 := setClosed s.graph cur
          let s2 := (G1.neighbors cur).foldl (expandStep heu endPos closest cur)
            { s with graph := G1, heap := heap1, popLog := s.popLog ++ [cur] }
          searchLoop heu endPos closest pathFuel fuel s2
      | (none, _) => none
    else
      if closest = true then
        (AStar.pathTo s.graph pathFuel s.closestNode).map (fun pa =>
          { found := false, path := pa, graph := s.graph,
            pushLog := s.pushLog, popLog := s.popLog, relaxLog := s.relaxLog,
            dupFlag := s.dupFlag })
      else
        some { found := false, path := [], graph := s.graph,
               pushLog := s.pushLog, popLog := s.popLog, relaxLog := s.relaxLog,
               dupFlag := s.dupFlag }

/-- The number of grid cells; pathTo gets fuel cellCount + 2, which the
validity theorem shows is always enough. -/
def cellCount (G : Graph) : Nat := (G.grid.map List.length).sum

/-- AStar.search: clean the dirty state, seed the heap with start (setting
only start.h), and run the loop. -/
def AStar.search (G : Graph) (start endPos : Pos) (closest : Bool)
    (heu : Pos → Pos → ℚ) (fuel : Nat) : Option SearchRun :=
  let G0 := G.cleanDirty
  let G1 := Graph.markDirty
    (setTrans G0 start { G0.trans start with h := heu start endPos }) start
  let s0 : LoopState :=
    { graph := G1,
      heap := BinaryHeap.push (fScore G1) [] start,
      closestNode := start,
      pushLog := [(start, (G1.trans start).visited, (G1.trans start).visited)],
      popLog := [], relaxLog := [], dupFlag := false }
  searchLoop heu endPos closest (cellCount G + 2) fuel s0

/-- AStar.heuristics.manhattan. -/
def AStar.manhattan (p0 p1 : Pos) : ℚ :=
  |(p1.1 : ℚ) - (p0.1 : ℚ)| + |(p1.2 : ℚ) - (p0.2 : ℚ)|

/-- Modelled from the spec wording of neighbors (section 4.1): the offsets
Left, Right, Down, Up and then the four diagonals, in that order. Used only
to state the refinement theorem for claim C7. -/
def offsets (diagonal : Bool) : List Pos :=
  [(-1, 0), (1, 0), (0, -1), (0, 1)] ++
  (if diagonal then [(-1, -1), (1, -1), (-1, 1), (1, 1)] else [])

/-- Modelled from the spec wording of neighbors: the in-bounds adjacent
positions, taken in offset order. Used only to state the refinement theorem
for claim C7. -/
def neighborsSpec (G : Graph) (p : Pos) : List Pos :=
  (offsets G.diagonal).filterMap (fun d =>
    if G.hasNode (p.1 + d.1, p.2 + d.2) = true then some (p.1 + d.1, p.2 + d.2) else none)

/-- Modelled from the spec wording of the step cost (section 4.3 step c):
the destination weight, scaled by the diagonal constant exactly when the
step is diagonal. Used to state the refinement theorem for claim C5. -/
def stepCostSpec (wDest : ℚ) (diagStep : Bool) : ℚ :=
  if diagStep then wDest * (141421 / 100000) else wDest

/-- A step-by-step walk: pathOk G p l holds when l is a sequence of
positions starting adjacent to p, each adjacent to the previous one under
the configured movement model and none of them a wall. -/
def pathOk (G : Graph) : Pos → List Pos → Prop
  | _, [] => True
  | p, q :: rest => q ∈ G.neighbors p ∧ G.weight q ≠ 0 ∧ pathOk G q rest

instance pathOk.instDecidable (G : Graph) : (p : Pos) → (l : List Pos) → Decidable (pathOk G p l)
  | _, [] => .isTrue trivial
  | _, q :: rest =>
    have : Decidable (pathOk G q rest) := pathOk.instDecidable G q rest
    instDecidableAnd

/-- The total cost of walking l from p: the sum of the step costs as
defined by getNodeCost. -/
def pathCost (G : Graph) : Pos → List Pos → ℚ
  | _, [] => 0
  | p, q :: rest => AStar.getNodeCost G q (some p) + pathCost G q rest

/-- l is a valid path from s to e: a step-by-step walk from s whose last
position is e (the empty path is the valid path from s to s). -/
def IsValidPath (G : Graph) (s e : Pos) (l : List Pos) : Prop :=
  pathOk G s l ∧ l.getLastD s = e

instance IsValidPath.instDecidable (G : Graph) (s e : Pos) (l : List Pos) :
    Decidable (IsValidPath G s e l) :=
  decidable_of_iff (pathOk G s l ∧ l.getLastD s = e) Iff.rfl

/-- The heuristic heu is admissible for goal endPos on G: it never
overestimates the cost of any valid path to the goal. -/
def Admissible (G : Graph) (heu : Pos → Pos → ℚ) (endPos : Pos) : Prop :=
  ∀ p l, IsValidPath G p endPos l → heu p endPos ≤ pathCost G p l

/-- Every transient node state of G is at baseline. -/
def Baseline (G : Graph) : Prop := ∀ p, G.trans p = baselineNode

/-- All in-bounds weights of G are nonnegative (so passable cells have
strictly positive weights). -/
def NonnegWeights (G : Graph) : Prop := ∀ p : Pos, 0 ≤ G.weight p

/-- Decidable comparison underlying the heap property at one pair of
slots: the score at slot i is at most the score at slot j, trivially true
when either slot is absent. -/
def heapLeB {α β : Type} [LinearOrder β] (score : α → β) (l : List α) (i j : Nat) : Bool :=
  match l[i]?, l[j]? with
  | some a, some b => decide (score a ≤ score b)
  | _, _ => true

/-- The binary heap invariant: every non-root slot scores at least its
parent slot. -/
def IsHeap {α β : Type} [LinearOrder β] (score : α → β) (l : List α) : Prop :=
  ∀ i, i < l.length → 0 < i → heapLeB score l (parentIdx i) i = true

/-- One operation of the BinaryHeap interface exercised by claim C4. -/
inductive HeapOp (α : Type) where
  | push (a : α)
  | pop
  | remove (a : α)
  | rescore (a : α)

/-- Apply one heap operation. -/
def applyOp {α β : Type} [DecidableEq α] [LinearOrder β] (score : α → β)
    (l : List α) : HeapOp α → List α
  | .push a => BinaryHeap.push score l a
  | .pop => (BinaryHeap.pop score l).2
  | .remove a => BinaryHeap.remove score l a
  | .rescore a => BinaryHeap.rescoreElement score l a

/-- Apply a sequence of heap operations, first one first. -/
def applyOps {α β : Type} [DecidableEq α] [LinearOrder β] (score : α → β)
    (l : List α) : List (HeapOp α) → List α
  | [] => l
  | op :: ops => applyOps score (applyOp score l op) ops

/-- The precondition of one heap operation: remove requires the node to be
present (locating an absent node would hit JavaScript negative-index
behavior that the search never exercises); the other operations are total. -/
def OpPre {α : Type} (l : List α) : HeapOp α → Prop
  | .push _ => True
  | .pop => True
  | .remove a => a ∈ l
  | .rescore _ => True

/-- A sequence of heap operations each of whose preconditions holds in the
state where it runs. -/
def ValidOps {α β : Type} [DecidableEq α] [LinearOrder β] (score : α → β)
    (l : List α) : List (HeapOp α) → Prop
  | [] => True
  | op :: ops => OpPre l op ∧ ValidOps score (applyOp score l op) ops

/-- All in-bounds positions of the grid, row by row. -/
def cellsList (G : Graph) : List Pos :=
  (List.range G.grid.length).flatMap (fun i =>
    (List.range (G.grid[i]?.getD []).length).map (fun j => (Int.ofNat i, Int.ofNat j)))

/-- The in-bounds positions as a finite set. -/
def cellsFinset (G : Graph) : Finset Pos := (cellsList G).toFinset

/-- The number of in-bounds cells whose g value is strictly below that of p:
the termination measure for walking parent links. -/
def gMeasure (G : Graph) (p : Pos) : Nat :=
  ((cellsFinset G).filter (fun r => (G.trans r).g < (G.trans p).g)).card

/-- p is a node the search has visited, or the start node. -/
def VisitedOrStart (G : Graph) (startPos p : Pos) : Prop :=
  (G.trans p).visited = true ∨ p = startPos

/-- The per-node invariant the search loop maintains once the start node has
been closed: every visited node records a parent edge that is a genuine,
strictly cost-increasing step of the graph from a closed node, and the start
node is closed, unvisited, parentless, at cost zero. -/
def ParentInv (G : Graph) (startPos : Pos) : Prop :=
  (∀ p : Pos, (G.trans p).visited = true →
    ∃ q : Pos, (G.trans p).parent = some q ∧ (G.trans q).closed = true ∧
      p ∈ G.neighbors q ∧ G.weight p ≠ 0 ∧
      (G.trans p).g = (G.trans q).g + AStar.getNodeCost G p (some q)) ∧
  (∀ p : Pos, (G.trans p).closed = true → VisitedOrStart G startPos p) ∧
  (G.trans startPos).parent = none ∧ (G.trans startPos).g = 0 ∧
  (G.trans startPos).closed = true ∧ (G.trans startPos).visited = false

/-- Every heap entry is a visited node or the start node. -/
def HeapInv (G : Graph) (startPos : Pos) (hp : List Pos) : Prop :=
  ∀ p, p ∈ hp → VisitedOrStart G startPos p

/-- Push-log bookkeeping: the start node is pushed at most once, and every
other node appears in the push log exactly as often as its visited flag
says (once if visited, never otherwise). -/
def PushInv (G : Graph) (startPos : Pos) (log : List (Pos × Bool × Bool)) : Prop :=
  List.count startPos (log.map Prod.fst) ≤ 1 ∧
  ∀ p, p ≠ startPos →
    List.count p (log.map Prod.fst) = (if (G.trans p).visited = true then 1 else 0)

/-- The heap holds each node no more often than it was pushed. -/
def HeapCountInv (hp : List Pos) (log : List (Pos × Bool × Bool)) : Prop :=
  ∀ p, hp.count p ≤ List.count p (log.map Prod.fst)

/-- The shape of push-log entries: every push happens while the node's
visited flag is false, and every non-seed push leaves it true. -/
def PushEntriesOk (startPos : Pos) (log : List (Pos × Bool × Bool)) : Prop :=
  ∀ e ∈ log, e.2.1 = false ∧ (e.1 ≠ startPos → e.2.2 = true)

/-- The transient fields of the start node that stay frozen for the whole
of one search: no parent, cost zero, the heuristic value set at entry. -/
def StartFrozen (G : Graph) (startPos : Pos) (startH : ℚ) : Prop :=
  (G.trans startPos).parent = none ∧ (G.trans startPos).g = 0 ∧
  (G.trans startPos).h = startH

/-- A relaxation event (position, h, g) beats the start node as closest
candidate: strictly smaller h, or equal h and strictly smaller g (start has
g = 0). -/
def BeatsStart (startH : ℚ) (e : Pos × ℚ × ℚ) : Prop :=
  e.2.1 < startH ∨ (e.2.1 = startH ∧ e.2.2 < 0)

/-- The graph of the optimality counterexample for claim C1: a 3 by 3 grid,
4-directional movement. Row 0 holds the cheap corridor, row 1 the expensive
corridor, row 2 two walls and the heavy goal cell. -/
def cexGraph : Graph :=
  { grid := [[1, 1, 1], [1, 10, 1], [0, 0, 20]], diagonal := false,
    trans := fun _ => baselineNode, dirtyNodes := [] }

/-- The admissible but inconsistent heuristic of the C1 counterexample:
15 at position (0, 1), 0 everywhere else (every path from (0, 1) to the
goal must enter the goal cell of weight 20, so 15 never overestimates). -/
def cexHeu : Pos → Pos → ℚ := fun p _ => if p = ((0 : ℤ), (1 : ℤ)) then 15 else 0

/-- The cheap path of the C1 counterexample, of total cost 23. -/
def cexCheapPath : List Pos := [(0, 1), (0, 2), (1, 2), (2, 2)]

/-- The path that the C1 counterexample search actually returns, of total
cost 32. -/
def cexFoundPath : List Pos := [(1, 0), (1, 1), (1, 2), (2, 2)]

/-- An all-ones 2 by 2 grid with diagonal movement, for the C5
counterexample. -/
def diagGraph : Graph :=
  { grid := [[1, 1], [1, 1]], diagonal := true,
    trans := fun _ => baselineNode, dirtyNodes := [] }

/-- A 3 by 3 grid whose centre is completely walled in, for the C10
witness: start (1, 1) has only impassable neighbors. -/
def walledGraph : Graph :=
  { grid := [[1, 0, 1], [0, 1, 0], [1, 0, 1]], diagonal := false,
    trans := fun _ => baselineNode, dirtyNodes := [] }

/-- A 1 by 2 grid at baseline, for witnesses that need a trivial graph. -/
def tinyGraph : Graph :=
  { grid := [[1, 1]], diagonal := false,
    trans := fun _ => baselineNode, dirtyNodes := [] }

/-- A graph with garbage transient state and a duplicate-containing dirty
list, for the C6 witness. -/
def dirtyGraph : Graph :=
  { grid := [[1, 1], [1, 1]], diagonal := false,
    trans := fun _ =>
      { f := 5, g := 6, h := 7, visited := true, closed := true, parent := some (0, 0) },
    dirtyNodes := [(0, 0), (1, 0), (0, 0)] }

/-- The relax branch of expandStep, lifted out for reasoning: the neighbor
is marked visited, reparented to cur, rescored, marked dirty, the closest
candidate updated, and the heap pushed or rescored. -/
def relaxResult (heu : Pos → Pos → ℚ) (endPos : Pos) (closest : Bool)
    (cur : Pos) (s : LoopState) (neighbor : Pos) : LoopState :=
  let G := s.graph
  let gScore := (G.trans cur).g + AStar.getNodeCost G neighbor (some cur)
  let beenVisited := (G.trans neighbor).visited
  let hVal := if (G.trans neighbor).h = 0 then heu neighbor endPos else (G.trans neighbor).h
  let G2 := Graph.markDirty (setTrans G neighbor
    { visited := true, parent := some cur, h := hVal, g := gScore,
      f := gScore + hVal, closed := (G.trans neighbor).closed }) neighbor
  let newClosest :=
    if closest = true then
      if hVal < (G2.trans s.closestNode).h ∨
          (hVal = (G2.trans s.closestNode).h ∧ gScore < (G2.trans s.closestNode).g) then
        neighbor
      else s.closestNode
    else s.closestNode
  if beenVisited = false then
    { graph := G2,
      heap := BinaryHeap.push (fScore G2) s.heap neighbor,
      closestNode := newClosest,
      pushLog := s.pushLog ++ [(neighbor, beenVisited, (G2.trans neighbor).visited)],
      popLog := s.popLog,
      relaxLog := s.relaxLog ++ [(neighbor, hVal, gScore)],
      dupFlag := s.dupFlag || decide (neighbor ∈ s.heap) }
  else
    { graph := G2,
      heap := BinaryHeap.rescoreElement (fScore G2) s.heap neighbor,
      closestNode := newClosest,
      pushLog := s.pushLog,
      popLog := s.popLog,
      relaxLog := s.relaxLog ++ [(neighbor, hVal, gScore)],
      dupFlag := s.dupFlag }

/-- The combined invariant the search loop maintains from the moment the
start node is closed. -/
def LoopInv (startPos : Pos) (s : LoopState) : Prop :=
  ParentInv s.graph startPos ∧
  HeapInv s.graph startPos s.heap ∧
  PushInv s.graph startPos s.pushLog ∧
  HeapCountInv s.heap s.pushLog ∧
  PushEntriesOk startPos s.pushLog ∧
  s.dupFlag = false

/-- In best-effort mode, while no relaxation beats the start node, the
tracked closest node remains the start node and the start node stays
frozen. -/
def ClosestInv (startPos : Pos) (startH : ℚ) (s : LoopState) : Prop :=
  StartFrozen s.graph startPos startH ∧ s.closestNode = startPos

instance IsHeap.instDecidable {α β : Type} [LinearOrder β] (score : α → β)
    (l : List α) : Decidable (IsHeap score l) :=
  decidable_of_iff (∀ i, i < l.length → 0 < i → heapLeB score l (parentIdx i) i = true)
    Iff.rfl

instance OpPre.instDecidable {α : Type} [DecidableEq α] (l : List α) (op : HeapOp α) :
    Decidable (OpPre l op) :=
  match op with
  | .push _ => .isTrue trivial
  | .pop => .isTrue trivial
  | .remove a => inferInstanceAs (Decidable (a ∈ l))
  | .rescore _ => .isTrue trivial

instance ValidOps.instDecidable {α β : Type} [DecidableEq α] [LinearOrder β]
    (score : α → β) : (l : List α) → (ops : List (HeapOp α)) → Decidable (ValidOps score l ops)
  | _, [] => .isTrue trivial
  | l, op :: ops =>
    have : Decidable (ValidOps score (applyOp score l op) ops) :=
      ValidOps.instDecidable score (applyOp score l op) ops
    instDecidableAnd

theorem jsSet_eq_set {α : Type} (l : List α) (i : Nat) (v : α) (h : i < l.length) :
    jsSet l i v = l.set i v := by
  simp [jsSet, h]

theorem jsSet_eq_append {α : Type} (l : List α) (v : α) :
    jsSet l l.length v = l ++ [v] := by
  simp [jsSet]

theorem count_swap {α : Type} [DecidableEq α] (l : List α) (i j : Nat) (a b : α)
    (hi : l[i]? = some a) (hj : l[j]? = some b) (hij : i ≠ j) (x : α) :
    ((l.set i b).set j a).count x = l.count x := by
  have hil : i < l.length := by
    by_contra h
    simp [List.getElem?_eq_none (le_of_not_lt h)] at hi
  have hjl : j < l.length := by
    by_contra h
    simp [List.getElem?_eq_none (le_of_not_lt h)] at hj
  have hiv : l[i] = a := by
    rw [List.getElem?_eq_getElem hil] at hi
    exact Option.some.inj hi
  have hjv : l[j] = b := by
    rw [List.getElem?_eq_getElem hjl] at hj
    exact Option.some.inj hj
  have hma : a ∈ l := hiv ▸ List.getElem_mem hil
  have hmb : b ∈ l := hjv ▸ List.getElem_mem hjl
  have hca : a = x → 1 ≤ l.count x := fun h => List.count_pos_iff.mpr (h ▸ hma)
  have hcb : b = x → 1 ≤ l.count x := fun h => List.count_pos_iff.mpr (h ▸ hmb)
  rw [List.count_set a x ((l.set i b)) j (by simpa using hjl),
    List.count_set b x l i hil]
  rw [List.getElem_set_ne hij (by simpa using hjl), hiv, hjv]
  simp only [beq_iff_eq]
  split_ifs <;> simp_all

theorem parentIdx_lt (n : Nat) (h : 0 < n) : parentIdx n < n := by
  unfold parentIdx
  omega

theorem parentIdx_child1 (n : Nat) : parentIdx (2 * n + 1) = n := by
  unfold parentIdx
  omega

theorem parentIdx_child2 (n : Nat) : parentIdx (2 * n + 2) = n := by
  unfold parentIdx
  omega

theorem child_cases (i : Nat) (h : 0 < i) :
    i = 2 * parentIdx i + 1 ∨ i = 2 * parentIdx i + 2 := by
  unfold parentIdx
  omega

theorem sinkTo_length {α β : Type} [LinearOrder β] (score : α → β) (element : α) :
    ∀ (fuel : Nat) (l : List α) (n : Nat),
      (BinaryHeap.sinkTo score element fuel l n).length = l.length
  | 0, l, n => rfl
  | fuel + 1, l, n => by
    simp only [BinaryHeap.sinkTo]
    split
    · rfl
    split
    · rfl
    split
    · rw [sinkTo_length score element fuel]
      simp
    · rfl

theorem bubbleTo_length {α β : Type} [LinearOrder β] (score : α → β) (element : α)
    (elemScore : β) :
    ∀ (fuel : Nat) (l : List α) (n : Nat),
      (BinaryHeap.bubbleTo score element elemScore fuel l n).length = l.length
  | 0, l, n => rfl
  | fuel + 1, l, n => by
    simp only [BinaryHeap.bubbleTo]
    split
    · split
      · rw [bubbleTo_length score element elemScore fuel]
        simp
      · rfl
    · rfl

theorem sinkTo_count {α β : Type} [DecidableEq α] [LinearOrder β]
    (score : α → β) (element : α) :
    ∀ (fuel : Nat) (l : List α) (n : Nat), l[n]? = some element → ∀ x,
      (BinaryHeap.sinkTo score element fuel l n).count x = l.count x
  | 0, l, n, hn, x => rfl
  | fuel + 1, l, n, hn, x => by
    simp only [BinaryHeap.sinkTo]
    split
    · rfl
    rename_i hn0
    split
    · rfl
    rename_i parent hp
    split
    · rename_i hlt
      have hne : parentIdx n ≠ n := Nat.ne_of_lt (parentIdx_lt n (Nat.pos_of_ne_zero hn0))
      have hplt : parentIdx n < l.length := by
        by_contra hcon
        simp [List.getElem?_eq_none (le_of_not_lt hcon)] at hp
      have h2 : ((l.set (parentIdx n) element).set n parent)[parentIdx n]? = some element := by
        rw [List.getElem?_set_ne (Ne.symm hne), List.getElem?_set_self (by simpa using hplt)]
      rw [sinkTo_count score element fuel _ _ h2 x]
      exact count_swap l (parentIdx n) n parent element hp hn hne x
    · rfl

theorem bubbleSwap_some {α β : Type} [LinearOrder β] (score : α → β)
    (elemScore : β) (l : List α) (n sw : Nat)
    (h : BinaryHeap.bubbleSwap score elemScore l n = some sw) :
    (sw = 2 * n + 1 ∨ sw = 2 * n + 2) ∧
      ∃ c, l[sw]? = some c ∧ score c < elemScore ∧
        ∀ j, (j = 2 * n + 1 ∨ j = 2 * n + 2) → ∀ cj, l[j]? = some cj →
          score c ≤ score cj := by
  have e1 : (n + 1) * 2 - 1 = 2 * n + 1 := by omega
  have e2 : (n + 1) * 2 = 2 * n + 2 := by omega
  unfold BinaryHeap.bubbleSwap at h
  rw [e1, e2] at h
  rcases hc1 : l[2 * n + 1]? with _ | c1 <;> rcases hc2 : l[2 * n + 2]? with _ | c2 <;>
    rw [hc1, hc2] at h <;> dsimp only [] at h
  · cases h
  · split_ifs at h with h1
    cases h
    refine ⟨Or.inr rfl, c2, hc2, h1, ?_⟩
    rintro j (rfl | rfl) cj hcj
    · rw [hc1] at hcj
      cases hcj
    · rw [hc2] at hcj
      cases hcj
      exact le_refl _
  · split_ifs at h with h1
    cases h
    refine ⟨Or.inl rfl, c1, hc1, h1, ?_⟩
    rintro j (rfl | rfl) cj hcj
    · rw [hc1] at hcj
      cases hcj
      exact le_refl _
    · rw [hc2] at hcj
      cases hcj
  · split_ifs at h with h1 h2 h3
    · cases h
      refine ⟨Or.inr rfl, c2, hc2, lt_trans h2 h1, ?_⟩
      rintro j (rfl | rfl) cj hcj
      · rw [hc1] at hcj
        cases hcj
        exact le_of_lt h2
      · rw [hc2] at hcj
        cases hcj
        exact le_refl _
    · cases h
      refine ⟨Or.inl rfl, c1, hc1, h1, ?_⟩
      rintro j (rfl | rfl) cj hcj
      · rw [hc1] at hcj
        cases hcj
        exact le_refl _
      · rw [hc2] at hcj
        cases hcj
        exact not_lt.mp h2
    · cases h
      refine ⟨Or.inr rfl, c2, hc2, h3, ?_⟩
      rintro j (rfl | rfl) cj hcj
      · rw [hc1] at hcj
        cases hcj
        exact le_of_lt (lt_of_lt_of_le h3 (not_lt.mp h1))
      · rw [hc2] at hcj
        cases hcj
        exact le_refl _

theorem bubbleSwap_none {α β : Type} [LinearOrder β] (score : α → β)
    (elemScore : β) (l : List α) (n : Nat)
    (h : BinaryHeap.bubbleSwap score elemScore l n = none) :
    ∀ j, (j = 2 * n + 1 ∨ j = 2 * n + 2) → ∀ cj, l[j]? = some cj →
      elemScore ≤ score cj := by
  have e1 : (n + 1) * 2 - 1 = 2 * n + 1 := by omega
  have e2 : (n + 1) * 2 = 2 * n + 2 := by omega
  unfold BinaryHeap.bubbleSwap at h
  rw [e1, e2] at h
  intro j hj cj hcj
  rcases hc1 : l[2 * n + 1]? with _ | c1 <;> rcases hc2 : l[2 * n + 2]? with _ | c2 <;>
    rw [hc1, hc2] at h <;> dsimp only [] at h
  · rcases hj with rfl | rfl
    · rw [hc1] at hcj
      cases hcj
    · rw [hc2] at hcj
      cases hcj
  · split_ifs at h with h1
    rcases hj with rfl | rfl
    · rw [hc1] at hcj
      cases hcj
    · rw [hc2] at hcj
      cases hcj
      exact not_lt.mp h1
  · split_ifs at h with h1
    rcases hj with rfl | rfl
    · rw [hc1] at hcj
      cases hcj
      exact not_lt.mp h1
    · rw [hc2] at hcj
      cases hcj
  · split_ifs at h
    rcases hj with rfl | rfl
    · rw [hc1] at hcj
      cases hcj
      simp_all [not_lt]
    · rw [hc2] at hcj
      cases hcj
      simp_all [not_lt]

theorem bubbleTo_count {α β : Type} [DecidableEq α] [LinearOrder β]
    (score : α → β) (element : α) (elemScore : β) :
    ∀ (fuel : Nat) (l : List α) (n : Nat), l[n]? = some element → ∀ x,
      (BinaryHeap.bubbleTo score element elemScore fuel l n).count x = l.count x
  | 0, l, n, hn, x => rfl
  | fuel + 1, l, n, hn, x => by
    simp only [BinaryHeap.bubbleTo]
    split
    · rename_i sw hsw
      split
      · rename_i childVal hcv
        obtain ⟨hsw12, c, hc, _, _⟩ := bubbleSwap_some score elemScore l n sw hsw
        have hne : n ≠ sw := by omega
        have hswlt : sw < l.length := by
          by_contra hcon
          simp [List.getElem?_eq_none (le_of_not_lt hcon)] at hcv
        have h2 : ((l.set n childVal).set sw element)[sw]? = some element := by
          rw [List.getElem?_set_self (by simpa using hswlt)]
        rw [bubbleTo_count score element elemScore fuel _ _ h2 x]
        exact count_swap l n sw element childVal hn hcv hne x
      · rfl
    · rfl

theorem heapLeB_intro {α β : Type} [LinearOrder β] {score : α → β} {l : List α}
    {i j : Nat} (h : ∀ a b, l[i]? = some a → l[j]? = some b → score a ≤ score b) :
    heapLeB score l i j = true := by
  unfold heapLeB
  rcases hi : l[i]? with _ | a <;> rcases hj : l[j]? with _ | b <;> simp
  exact h a b hi hj

theorem heapLeB_elim {α β : Type} [LinearOrder β] {score : α → β} {l : List α}
    {i j : Nat} {a b : α} (h : heapLeB score l i j = true)
    (hi : l[i]? = some a) (hj : l[j]? = some b) : score a ≤ score b := by
  unfold heapLeB at h
  rw [hi, hj] at h
  simpa using h

theorem getElem?_lt_length {α : Type} {l : List α} {n : Nat} {a : α}
    (h : l[n]? = some a) : n < l.length := by
  by_contra hcon
  simp [List.getElem?_eq_none (le_of_not_lt hcon)] at h

theorem sinkTo_isHeap {α β : Type} [LinearOrder β] (score : α → β) :
    ∀ (fuel : Nat) (l : List α) (n : Nat) (element : α),
      l[n]? = some element →
      n ≤ fuel →
      (∀ j, j < l.length → 0 < j → j ≠ n → heapLeB score l (parentIdx j) j = true) →
      (0 < n → ∀ c, c < l.length → parentIdx c = n →
        heapLeB score l (parentIdx n) c = true) →
      IsHeap score (BinaryHeap.sinkTo score element fuel l n)
  | 0, l, n, element, hn, hfuel, H1, _ => by
    have hn0 : n = 0 := Nat.le_zero.mp hfuel
    subst hn0
    intro j hj hj0
    exact H1 j (by simpa using hj) hj0 (Nat.pos_iff_ne_zero.mp hj0)
  | fuel + 1, l, n, element, hn, hfuel, H1, H2 => by
    simp only [BinaryHeap.sinkTo]
    split
    · rename_i hn0
      subst hn0
      intro j hj hj0
      exact H1 j (by simpa using hj) hj0 (Nat.pos_iff_ne_zero.mp hj0)
    · rename_i hn0
      have hpos : 0 < n := Nat.pos_of_ne_zero hn0
      have hnlen : n < l.length := getElem?_lt_length hn
      have hplt : parentIdx n < n := parentIdx_lt n hpos
      split
      · rename_i hpnone
        exact absurd hpnone (by simp [List.getElem?_eq_getElem (lt_trans hplt hnlen)])
      · rename_i parent hpar
        split
        · rename_i hlt
          -- the swap case
          set pN := parentIdx n with hpN
          have hne : pN ≠ n := Nat.ne_of_lt hplt
          have hlen2 : ((l.set pN element).set n parent).length = l.length := by simp
          have hgetp : ((l.set pN element).set n parent)[pN]? = some element := by
            rw [List.getElem?_set_ne (Ne.symm hne),
              List.getElem?_set_self (by simpa using lt_trans hplt hnlen)]
          have hgetn : ((l.set pN element).set n parent)[n]? = some parent := by
            rw [List.getElem?_set_self (by simpa using hnlen)]
          have hgeto : ∀ x, x ≠ pN → x ≠ n →
              ((l.set pN element).set n parent)[x]? = l[x]? := by
            intro x hx1 hx2
            rw [List.getElem?_set_ne (fun h => hx2 h.symm),
              List.getElem?_set_ne (fun h => hx1 h.symm)]
          apply sinkTo_isHeap score fuel _ pN element hgetp (by omega)
          · -- H1 for the swapped list
            intro j hj hj0 hjne
            rw [hlen2] at hj
            by_cases hjn : j = n
            · subst hjn
              apply heapLeB_intro
              intro a b ha hb
              rw [← hpN, hgetp] at ha
              rw [hgetn] at hb
              cases ha
              cases hb
              exact le_of_lt hlt
            · by_cases hpj : parentIdx j = pN
              · -- sibling of n under the same parent slot
                apply heapLeB_intro
                intro a b ha hb
                rw [hpj, hgetp] at ha
                rw [hgeto j hjne hjn] at hb
                cases ha
                have := heapLeB_elim (H1 j hj hj0 hjn) (by rw [hpj]; exact hpar) hb
                exact le_trans (le_of_lt hlt) this
              · by_cases hpjn : parentIdx j = n
                · -- a child of n
                  apply heapLeB_intro
                  intro a b ha hb
                  rw [hpjn, hgetn] at ha
                  rw [hgeto j hjne hjn] at hb
                  cases ha
                  exact heapLeB_elim (H2 hpos j hj hpjn) hpar hb
                · -- untouched edge
                  apply heapLeB_intro
                  intro a b ha hb
                  rw [hgeto _ hpj hpjn] at ha
                  rw [hgeto j hjne hjn] at hb
                  exact heapLeB_elim (H1 j hj hj0 hjn) ha hb
          · -- H2 for the swapped list
            intro hpN0 c hc hpc
            rw [hlen2] at hc
            have hppn : parentIdx pN < pN := parentIdx_lt pN hpN0
            have hc0 : 0 < c := by
              rcases Nat.eq_zero_or_pos c with rfl | h
              · rw [show parentIdx 0 = 0 from rfl] at hpc
                omega
              · exact h
            have hcgt : pN < c := hpc ▸ parentIdx_lt c hc0
            have hgetpp : ((l.set pN element).set n parent)[parentIdx pN]? =
                l[parentIdx pN]? :=
              hgeto _ (Nat.ne_of_lt hppn) (Nat.ne_of_lt (lt_trans hppn hplt))
            by_cases hcn : c = n
            · subst hcn
              apply heapLeB_intro
              intro a b ha hb
              rw [hgetpp] at ha
              rw [hgetn] at hb
              cases hb
              have := heapLeB_elim (H1 pN (lt_trans hplt hnlen) hpN0 hne) ha hpar
              exact this
            · apply heapLeB_intro
              intro a b ha hb
              rw [hgetpp] at ha
              rw [hgeto c (Ne.symm (Nat.ne_of_lt hcgt)) hcn] at hb
              have step1 := heapLeB_elim (H1 pN (lt_trans hplt hnlen) hpN0 hne) ha hpar
              have step2 := heapLeB_elim (H1 c hc hc0 hcn) (hpc ▸ hpar) hb
              exact le_trans step1 step2
        · rename_i hnlt
          -- no swap: the parent already scores at most the element
          intro j hj hj0
          by_cases hjn : j = n
          · subst hjn
            apply heapLeB_intro
            intro a b ha hb
            rw [hpar] at ha
            rw [hn] at hb
            cases ha
            cases hb
            exact not_lt.mp hnlt
          · exact H1 j (by simpa using hj) hj0 hjn

theorem bubbleTo_isHeap {α β : Type} [LinearOrder β] (score : α → β) (element : α) :
    ∀ (fuel : Nat) (l : List α) (n : Nat),
      l[n]? = some element →
      l.length ≤ fuel + n →
      (∀ j, j < l.length → 0 < j → parentIdx j ≠ n →
        heapLeB score l (parentIdx j) j = true) →
      (0 < n → ∀ c, c < l.length → parentIdx c = n →
        heapLeB score l (parentIdx n) c = true) →
      IsHeap score (BinaryHeap.bubbleTo score element (score element) fuel l n)
  | 0, l, n, hn, hfuel, _, _ => by
    have := getElem?_lt_length hn
    omega
  | fuel + 1, l, n, hn, hfuel, K1, K2 => by
    have hnlen : n < l.length := getElem?_lt_length hn
    simp only [BinaryHeap.bubbleTo]
    split
    · rename_i sw hsw
      obtain ⟨hsw12, c, hc, hclt, hcmin⟩ :=
        bubbleSwap_some score (score element) l n sw hsw
      split
      · rename_i cv hcv
        rw [hc] at hcv
        cases hcv
        have hnsw : n < sw := by omega
        have hswlen : sw < l.length := getElem?_lt_length hc
        have hlen2 : ((l.set n c).set sw element).length = l.length := by simp
        have hgsw : ((l.set n c).set sw element)[sw]? = some element :=
          List.getElem?_set_self (by simpa using hswlen)
        have hgn : ((l.set n c).set sw element)[n]? = some c := by
          rw [List.getElem?_set_ne (Nat.ne_of_lt hnsw).symm,
            List.getElem?_set_self (by simpa using hnlen)]
        have hgo : ∀ x, x ≠ n → x ≠ sw →
            ((l.set n c).set sw element)[x]? = l[x]? := by
          intro x hx1 hx2
          rw [List.getElem?_set_ne (fun h => hx2 h.symm),
            List.getElem?_set_ne (fun h => hx1 h.symm)]
        have hpsw : parentIdx sw = n := by
          rcases hsw12 with rfl | rfl
          · exact parentIdx_child1 n
          · exact parentIdx_child2 n
        apply bubbleTo_isHeap score element fuel _ sw hgsw (by omega)
        · -- K1 for the swapped list
          intro j hj hj0 hjne
          rw [hlen2] at hj
          by_cases hjn : j = n
          · subst hjn
            apply heapLeB_intro
            intro a b ha hb
            have hpn : parentIdx j < j := parentIdx_lt j hj0
            rw [hgo _ (by omega) (by omega)] at ha
            rw [hgn] at hb
            cases hb
            exact heapLeB_elim (K2 hj0 sw hswlen hpsw) ha hc
          · by_cases hjsw : j = sw
            · subst hjsw
              apply heapLeB_intro
              intro a b ha hb
              rw [hpsw, hgn] at ha
              rw [hgsw] at hb
              cases ha
              cases hb
              exact le_of_lt hclt
            · by_cases hpjn : parentIdx j = n
              · -- the other child of n
                apply heapLeB_intro
                intro a b ha hb
                rw [hpjn, hgn] at ha
                rw [hgo j hjn hjsw] at hb
                cases ha
                exact hcmin j (by
                  have := child_cases j hj0
                  omega) b hb
              · -- untouched edge
                apply heapLeB_intro
                intro a b ha hb
                rw [hgo _ hpjn hjne] at ha
                rw [hgo j hjn hjsw] at hb
                exact heapLeB_elim (K1 j hj hj0 hpjn) ha hb
        · -- K2 for the swapped list
          intro hsw0 cc hcc hpcc
          rw [hlen2] at hcc
          have hccgt : sw < cc := hpcc ▸ parentIdx_lt cc (by
            rcases Nat.eq_zero_or_pos cc with rfl | h
            · rw [show parentIdx 0 = 0 from rfl] at hpcc
              omega
            · exact h)
          rw [hpsw]
          apply heapLeB_intro
          intro a b ha hb
          rw [hgn] at ha
          cases ha
          rw [hgo cc (by omega) (by omega)] at hb
          have : heapLeB score l (parentIdx cc) cc = true :=
            K1 cc hcc (by omega) (by omega)
          rw [hpcc] at this
          exact heapLeB_elim this hc hb
      · rename_i hnone
        rw [hc] at hnone
        cases hnone
    · rename_i hnone
      intro j hj hj0
      by_cases hpjn : parentIdx j = n
      · apply heapLeB_intro
        intro a b ha hb
        rw [hpjn, hn] at ha
        cases ha
        exact bubbleSwap_none score (score element) l n hnone j (by
          have := child_cases j hj0
          omega) b hb
      · exact K1 j (by simpa using hj) hj0 hpjn

theorem isHeap_dropLast {α β : Type} [LinearOrder β] {score : α → β} {l : List α}
    (h : IsHeap score l) : IsHeap score l.dropLast := by
  intro j hj hj0
  rw [List.length_dropLast] at hj
  apply heapLeB_intro
  intro a b ha hb
  rw [List.getElem?_dropLast, if_pos (lt_of_le_of_lt (le_of_lt (parentIdx_lt j hj0)) hj)] at ha
  rw [List.getElem?_dropLast, if_pos hj] at hb
  exact heapLeB_elim (h j (by omega) hj0) ha hb

theorem sinkDown_isHeap {α β : Type} [LinearOrder β] (score : α → β) (l : List α)
    (n : Nat)
    (H1 : ∀ j, j < l.length → 0 < j → j ≠ n → heapLeB score l (parentIdx j) j = true)
    (H2 : 0 < n → ∀ c, c < l.length → parentIdx c = n →
      heapLeB score l (parentIdx n) c = true) :
    IsHeap score (BinaryHeap.sinkDown score l n) := by
  unfold BinaryHeap.sinkDown
  split
  · rename_i hnone
    have hlen := List.getElem?_eq_none_iff.mp hnone
    intro j hj hj0
    exact H1 j hj hj0 (by omega)
  · rename_i element hsome
    exact sinkTo_isHeap score n l n element hsome (le_refl n) H1 H2

theorem bubbleUp_isHeap {α β : Type} [LinearOrder β] (score : α → β) (l : List α)
    (n : Nat)
    (K1 : ∀ j, j < l.length → 0 < j → parentIdx j ≠ n →
      heapLeB score l (parentIdx j) j = true)
    (K2 : 0 < n → ∀ c, c < l.length → parentIdx c = n →
      heapLeB score l (parentIdx n) c = true) :
    IsHeap score (BinaryHeap.bubbleUp score l n) := by
  unfold BinaryHeap.bubbleUp
  split
  · rename_i hnone
    have hlen := List.getElem?_eq_none_iff.mp hnone
    intro j hj hj0
    apply K1 j hj hj0
    have := parentIdx_lt j hj0
    omega
  · rename_i element hsome
    exact bubbleTo_isHeap score element l.length l n hsome (by omega) K1 K2

theorem sinkDown_eq_of_isHeap {α β : Type} [LinearOrder β] {score : α → β}
    {l : List α} (h : IsHeap score l) (n : Nat) :
    BinaryHeap.sinkDown score l n = l := by
  unfold BinaryHeap.sinkDown
  split
  · rfl
  · rename_i element hsome
    have hnlen := getElem?_lt_length hsome
    cases n with
    | zero => rfl
    | succ m =>
      simp only [BinaryHeap.sinkTo]
      rw [if_neg (Nat.succ_ne_zero m)]
      split
      · rfl
      · rename_i parent hpar
        rw [if_neg]
        exact not_lt.mpr (heapLeB_elim (h (m + 1) hnlen (Nat.succ_pos m)) hpar hsome)

theorem bubbleSwap_none_of_isHeap {α β : Type} [LinearOrder β] {score : α → β}
    {l : List α} (h : IsHeap score l) {n : Nat} {element : α}
    (hn : l[n]? = some element) :
    BinaryHeap.bubbleSwap score (score element) l n = none := by
  have e1 : (n + 1) * 2 - 1 = 2 * n + 1 := by omega
  have e2 : (n + 1) * 2 = 2 * n + 2 := by omega
  unfold BinaryHeap.bubbleSwap
  rw [e1, e2]
  have hch : ∀ c j, j = 2 * n + 1 ∨ j = 2 * n + 2 → l[j]? = some c →
      ¬(score c < score element) := by
    intro c j hj hcj
    have hjlen := getElem?_lt_length hcj
    have hpj : parentIdx j = n := by
      rcases hj with rfl | rfl
      · exact parentIdx_child1 n
      · exact parentIdx_child2 n
    have := heapLeB_elim (h j hjlen (by omega)) (hpj ▸ hn) hcj
    exact not_lt.mpr this
  rcases hc1 : l[2 * n + 1]? with _ | c1 <;> rcases hc2 : l[2 * n + 2]? with _ | c2 <;>
    dsimp only [] <;> try rfl
  all_goals first
    | rw [if_neg (hch c1 _ (Or.inl rfl) hc1), if_neg (hch c2 _ (Or.inr rfl) hc2)]
    | rw [if_neg (hch c2 _ (Or.inr rfl) hc2)]
    | rw [if_neg (hch c1 _ (Or.inl rfl) hc1)]

theorem bubbleUp_eq_of_isHeap {α β : Type} [LinearOrder β] {score : α → β}
    {l : List α} (h : IsHeap score l) (n : Nat) :
    BinaryHeap.bubbleUp score l n = l := by
  unfold BinaryHeap.bubbleUp
  split
  · rfl
  · rename_i element hsome
    have hnlen := getElem?_lt_length hsome
    have hfuel : l.length = (l.length - 1) + 1 := by omega
    rw [hfuel]
    simp only [BinaryHeap.bubbleTo]
    rw [bubbleSwap_none_of_isHeap h hsome]

theorem push_isHeap {α β : Type} [LinearOrder β] {score : α → β} {l : List α}
    (h : IsHeap score l) (e : α) : IsHeap score (BinaryHeap.push score l e) := by
  unfold BinaryHeap.push
  apply sinkDown_isHeap
  · intro j hj hj0 hjne
    rw [List.length_append, List.length_singleton] at hj
    have hjlt : j < l.length := by omega
    apply heapLeB_intro
    intro a b ha hb
    rw [List.getElem?_append_left (lt_of_le_of_lt (le_of_lt (parentIdx_lt j hj0)) hjlt)] at ha
    rw [List.getElem?_append_left hjlt] at hb
    exact heapLeB_elim (h j hjlt hj0) ha hb
  · intro h0 c hc hpc
    rw [List.length_append, List.length_singleton] at hc
    have := child_cases c (by
      rcases Nat.eq_zero_or_pos c with rfl | hcp
      · rw [show parentIdx 0 = 0 from rfl] at hpc
        omega
      · exact hcp)
    omega

theorem pop_isHeap {α β : Type} [LinearOrder β] {score : α → β} {l : List α}
    (h : IsHeap score l) : IsHeap score (BinaryHeap.pop score l).2 := by
  unfold BinaryHeap.pop
  split
  · exact h
  · rename_i e hlast
    have hne : l ≠ [] := by
      intro hcon
      rw [hcon] at hlast
      cases hlast
    simp only []
    by_cases hlen : 0 < l.dropLast.length
    · rw [if_pos hlen]
      show IsHeap score (BinaryHeap.bubbleUp score (l.dropLast.set 0 e) 0)
      apply bubbleUp_isHeap
      · intro j hj hj0 hpjne
        rw [List.length_set] at hj
        apply heapLeB_intro
        intro a b ha hb
        rw [List.getElem?_set_ne (Ne.symm hpjne)] at ha
        rw [List.getElem?_set_ne (by omega : (0 : Nat) ≠ j)] at hb
        exact heapLeB_elim (isHeap_dropLast h j hj hj0) ha hb
      · intro h0
        omega
    · rw [if_neg hlen]
      exact isHeap_dropLast h

theorem remove_isHeap {α β : Type} [DecidableEq α] [LinearOrder β] {score : α → β}
    {l : List α} (h : IsHeap score l) {node : α} (hmem : node ∈ l) :
    IsHeap score (BinaryHeap.remove score l node) := by
  unfold BinaryHeap.remove
  split
  · exact h
  · rename_i e hlast
    have hne : l ≠ [] := by
      intro hcon
      rw [hcon] at hlast
      cases hlast
    have hegl : e = l.getLast hne := by
      rw [List.getLast?_eq_getLast l hne] at hlast
      exact (Option.some.inj hlast).symm
    have hi : List.indexOf node l < l.length := List.indexOf_lt_length.mpr hmem
    have hival : l[List.indexOf node l]? = some node := by
      rw [List.getElem?_eq_getElem hi, List.getElem_indexOf hi]
    have hrl : l.dropLast.length = l.length - 1 := List.length_dropLast l
    simp only []
    by_cases hguard : ((List.indexOf node l : ℤ) = (l.dropLast.length : ℤ) - 1)
    · rw [if_pos hguard]
      exact isHeap_dropLast h
    · rw [if_neg hguard]
      by_cases hlast_i : List.indexOf node l = l.length - 1
      · -- the node sits in the last slot: the write re-appends it
        have hig : List.indexOf node l = l.dropLast.length := by omega
        have hjs : jsSet l.dropLast (List.indexOf node l) e = l.dropLast ++ [e] := by
          rw [hig]
          exact jsSet_eq_append _ _
        have hl : l.dropLast ++ [e] = l := by
          rw [hegl]
          exact List.dropLast_append_getLast hne
        have hen : e = node := by
          have : l[l.length - 1]? = some node := by rw [← hlast_i]; exact hival
          rw [hegl, List.getLast_eq_getElem,
            ← Option.some.inj ((List.getElem?_eq_getElem (by omega)).symm.trans this)]
        rw [hjs, hl, hen, if_neg (lt_irrefl _)]
        rw [bubbleUp_eq_of_isHeap h]
        exact h
      · -- the node sits strictly inside dropLast
        have hilt : List.indexOf node l < l.dropLast.length := by omega
        have hjs : jsSet l.dropLast (List.indexOf node l) e =
            l.dropLast.set (List.indexOf node l) e := jsSet_eq_set _ _ _ hilt
        rw [hjs]
        have hresti : l.dropLast[List.indexOf node l]? = some node := by
          rw [List.getElem?_dropLast, if_pos (by omega)]
          exact hival
        have hl2i : (l.dropLast.set (List.indexOf node l) e)[List.indexOf node l]? =
            some e := List.getElem?_set_self (by simpa using hilt)
        have hl2o : ∀ x, x ≠ List.indexOf node l →
            (l.dropLast.set (List.indexOf node l) e)[x]? = l.dropLast[x]? := by
          intro x hx
          exact List.getElem?_set_ne (fun hh => hx hh.symm)
        have hdrop := isHeap_dropLast h
        split
        · rename_i hlt
          apply sinkDown_isHeap
          · intro j hj hj0 hjne
            rw [List.length_set] at hj
            by_cases hpji : parentIdx j = List.indexOf node l
            · apply heapLeB_intro
              intro a b ha hb
              rw [hpji, hl2i] at ha
              cases ha
              rw [hl2o j hjne] at hb
              have hedge := heapLeB_elim (hdrop j hj hj0) (hpji ▸ hresti) hb
              exact le_trans (le_of_lt hlt) hedge
            · apply heapLeB_intro
              intro a b ha hb
              rw [hl2o _ hpji] at ha
              rw [hl2o j hjne] at hb
              exact heapLeB_elim (hdrop j hj hj0) ha hb
          · intro hi0 c hc hpc
            rw [List.length_set] at hc
            have hpii : parentIdx (List.indexOf node l) < List.indexOf node l :=
              parentIdx_lt _ hi0
            have hc0 : 0 < c := by
              rcases Nat.eq_zero_or_pos c with rfl | hcp
              · rw [show parentIdx 0 = 0 from rfl] at hpc
                omega
              · exact hcp
            have hcgti : List.indexOf node l < c := hpc ▸ parentIdx_lt c hc0
            apply heapLeB_intro
            intro a b ha hb
            rw [hl2o _ (Nat.ne_of_lt hpii)] at ha
            rw [hl2o c (by omega)] at hb
            have s1 := heapLeB_elim (hdrop _ hilt hi0) ha hresti
            have s2 := heapLeB_elim (hdrop c hc hc0) (hpc ▸ hresti) hb
            exact le_trans s1 s2
        · rename_i hge
          apply bubbleUp_isHeap
          · intro j hj hj0 hpjne
            rw [List.length_set] at hj
            by_cases hji : j = List.indexOf node l
            · apply heapLeB_intro
              intro a b ha hb
              rw [hl2o _ hpjne] at ha
              rw [hji, hl2i] at hb
              cases hb
              have s1 := heapLeB_elim (hdrop j hj hj0) ha (by rw [hji]; exact hresti)
              exact le_trans s1 (not_lt.mp hge)
            · apply heapLeB_intro
              intro a b ha hb
              rw [hl2o _ hpjne] at ha
              rw [hl2o j hji] at hb
              exact heapLeB_elim (hdrop j hj hj0) ha hb
          · intro hi0 c hc hpc
            rw [List.length_set] at hc
            have hpii : parentIdx (List.indexOf node l) < List.indexOf node l :=
              parentIdx_lt _ hi0
            have hc0 : 0 < c := by
              rcases Nat.eq_zero_or_pos c with rfl | hcp
              · rw [show parentIdx 0 = 0 from rfl] at hpc
                omega
              · exact hcp
            have hcgti : List.indexOf node l < c := hpc ▸ parentIdx_lt c hc0
            apply heapLeB_intro
            intro a b ha hb
            rw [hl2o _ (Nat.ne_of_lt hpii)] at ha
            rw [hl2o c (by omega)] at hb
            have s1 := heapLeB_elim (hdrop _ hilt hi0) ha hresti
            have s2 := heapLeB_elim (hdrop c hc hc0) (hpc ▸ hresti) hb
            exact le_trans s1 s2

theorem rescoreElement_isHeap {α β : Type} [DecidableEq α] [LinearOrder β]
    {score : α → β} {l : List α} (h : IsHeap score l) (node : α) :
    IsHeap score (BinaryHeap.rescoreElement score l node) := by
  unfold BinaryHeap.rescoreElement
  rw [sinkDown_eq_of_isHeap h]
  exact h

theorem applyOp_isHeap {α β : Type} [DecidableEq α] [LinearOrder β]
    {score : α → β} {l : List α} (h : IsHeap score l) (op : HeapOp α)
    (hpre : OpPre l op) : IsHeap score (applyOp score l op) := by
  cases op with
  | push a => exact push_isHeap h a
  | pop => exact pop_isHeap h
  | remove a => exact remove_isHeap h hpre
  | rescore a => exact rescoreElement_isHeap h a

/-- C4: for every sequence of push, pop, remove and rescoreElement
operations (each run in a state satisfying its precondition: remove needs
the node present), the heap invariant - every non-root slot scores at least
its parent slot - holds after each operation of the sequence. Stated for
the whole sequence; every prefix of a valid sequence is itself a valid
sequence, so the invariant indeed holds after each step. -/
theorem heap_invariant_all_ops {α β : Type} [DecidableEq α] [LinearOrder β]
    (score : α → β) :
    ∀ (ops : List (HeapOp α)) (l : List α), IsHeap score l →
      ValidOps score l ops → IsHeap score (applyOps score l ops)
  | [], _, h, _ => h
  | op :: ops, l, h, hv =>
    heap_invariant_all_ops score ops (applyOp score l op)
      (applyOp_isHeap h op hv.1) hv.2

theorem heap_invariant_all_ops_witness :
    IsHeap (id : ℕ → ℕ)
      (applyOps id [3, 5, 8, 6]
        [HeapOp.push 5, HeapOp.push 2, HeapOp.pop, HeapOp.rescore 5,
         HeapOp.remove 5, HeapOp.pop, HeapOp.push 4]) :=
  heap_invariant_all_ops id
    [HeapOp.push 5, HeapOp.push 2, HeapOp.pop, HeapOp.rescore 5,
     HeapOp.remove 5, HeapOp.pop, HeapOp.push 4]
    [3, 5, 8, 6] (by decide) (by decide)

/-- C2, counterexample evaluation: remove reads content.length after the
pop, so removing the node in the last slot re-appends it (the heap is
unchanged, the node is not deleted), and removing the node in the
second-to-last slot silently drops the last element instead. Both inputs
satisfy the claim's hypotheses: the heap property holds and the node occurs
exactly once. -/
theorem remove_wrong_element :
    BinaryHeap.remove (id : ℕ → ℕ) [1, 2] 2 = [1, 2] ∧
    BinaryHeap.remove (id : ℕ → ℕ) [1, 2, 3] 2 = [1, 2] ∧
    IsHeap (id : ℕ → ℕ) [1, 2] ∧ List.count 2 [1, 2] = 1 ∧
    IsHeap (id : ℕ → ℕ) [1, 2, 3] ∧ List.count 2 [1, 2, 3] = 1 := by
  decide

/-- C3, counterexample: pop on the empty heap is not guarded; it silently
returns the undefined marker (none) and leaves the heap unchanged, rather
than failing with an invalid-state error. -/
theorem pop_empty_returns_undefined :
    BinaryHeap.pop (id : ℕ → ℕ) [] = (none, []) := rfl

/-- C3, amended: pop on an empty heap silently returns undefined (none)
with the heap unchanged - there is no explicit guard - and the search loop
never invokes pop on an empty heap, because it checks size() > 0 first and
returns immediately when the heap is empty. -/
theorem pop_empty_unguarded_loop_checks_size :
    (∀ (α β : Type) [LinearOrder β] (score : α → β),
      BinaryHeap.pop score ([] : List α) = (none, [])) ∧
    (∀ (heu : Pos → Pos → ℚ) (endPos : Pos) (pathFuel fuel : Nat) (G : Graph)
      (cl : Pos) (pl : List (Pos × Bool × Bool)) (pol : List Pos)
      (rl : List (Pos × ℚ × ℚ)) (df : Bool),
      searchLoop heu endPos false pathFuel (fuel + 1)
          { graph := G, heap := [], closestNode := cl, pushLog := pl,
            popLog := pol, relaxLog := rl, dupFlag := df } =
        some { found := false, path := [], graph := G, pushLog := pl,
               popLog := pol, relaxLog := rl, dupFlag := df }) := by
  constructor
  · intro α β inst score
    rfl
  · intro heu endPos pathFuel fuel G cl pl pol rl df
    rfl

theorem foldl_cleanNode_not_mem :
    ∀ (d : List Pos) (G : Graph) (p : Pos), p ∉ d →
      (d.foldl AStar.cleanNode G).trans p = G.trans p
  | [], _, _, _ => rfl
  | q :: rest, G, p, hp => by
    have hpq : p ≠ q := fun hcon => hp (hcon ▸ List.mem_cons_self q rest)
    have hprest : p ∉ rest := fun hcon => hp (List.mem_cons_of_mem q hcon)
    rw [List.foldl_cons, foldl_cleanNode_not_mem rest _ p hprest]
    simp [AStar.cleanNode, setTrans, hpq]

theorem foldl_cleanNode_mem :
    ∀ (d : List Pos) (G : Graph) (p : Pos), p ∈ d →
      (d.foldl AStar.cleanNode G).trans p = baselineNode
  | [], _, p, hp => absurd hp (List.not_mem_nil p)
  | q :: rest, G, p, hp => by
    rw [List.foldl_cons]
    by_cases hrest : p ∈ rest
    · exact foldl_cleanNode_mem rest _ p hrest
    · have hpq : p = q := by
        rcases List.mem_cons.mp hp with h | h
        · exact h
        · exact absurd h hrest
      rw [foldl_cleanNode_not_mem rest _ p hrest]
      simp [AStar.cleanNode, setTrans, hpq]

theorem foldl_markDirty_dirty :
    ∀ (d : List Pos) (G : Graph),
      (d.foldl Graph.markDirty G).dirtyNodes = G.dirtyNodes ++ d
  | [], G => by simp
  | q :: rest, G => by
    rw [List.foldl_cons, foldl_markDirty_dirty rest]
    simp [Graph.markDirty]

/-- C6: for every graph and every sequence of markDirty calls (duplicates
permitted), after cleanDirty every node that was marked dirty is back at
baseline (f = 0, g = 0, h = 0, visited = false, closed = false,
parent = none) and the dirty list is empty. -/
theorem cleanDirty_resets (G : Graph) (d : List Pos) :
    ((d.foldl Graph.markDirty G).cleanDirty).dirtyNodes = [] ∧
    ∀ p, p ∈ d → ((d.foldl Graph.markDirty G).cleanDirty).trans p = baselineNode := by
  constructor
  · rfl
  · intro p hp
    show ((d.foldl Graph.markDirty G).dirtyNodes.foldl AStar.cleanNode _).trans p =
      baselineNode
    apply foldl_cleanNode_mem
    rw [foldl_markDirty_dirty]
    exact List.mem_append_right _ hp

theorem cleanDirty_resets_witness :
    (([(0, 0), (1, 0), (0, 0)].foldl Graph.markDirty dirtyGraph).cleanDirty).dirtyNodes
        = [] ∧
    (([(0, 0), (1, 0), (0, 0)].foldl Graph.markDirty dirtyGraph).cleanDirty).trans (1, 0)
        = baselineNode :=
  ⟨(cleanDirty_resets dirtyGraph [(0, 0), (1, 0), (0, 0)]).1,
   (cleanDirty_resets dirtyGraph [(0, 0), (1, 0), (0, 0)]).2 (1, 0) (by decide)⟩

theorem fm_cons {α β : Type} (f : α → Option β) (a : α) (l : List α) :
    List.filterMap f (a :: l) = (f a).toList ++ List.filterMap f l := by
  cases h : f a <;> simp [List.filterMap_cons, h]

theorem nCheck_toList (G : Graph) (x y : ℤ) :
    nCheck G x y = (if G.hasNode (x, y) = true then some ((x, y) : Pos) else none).toList := by
  unfold nCheck Graph.hasNode
  by_cases h : (cellAt G x y).isSome = true <;> simp [h]

/-- C7: neighbors(node) returns exactly the in-bounds adjacent nodes, in
the fixed order Left, Right, Down, Up and then, when diagonal movement is
enabled, Down-Left, Down-Right, Up-Left, Up-Right; out-of-bounds positions
are excluded without error. Stated as equality with the spec-worded
offset-filter definition neighborsSpec. -/
theorem neighbors_eq_spec (G : Graph) (p : Pos) : G.neighbors p = neighborsSpec G p := by
  have e1 : p.1 + (-1 : ℤ) = p.1 - 1 := by ring
  have e3 : p.2 + (-1 : ℤ) = p.2 - 1 := by ring
  have e4 : p.1 + (0 : ℤ) = p.1 := by ring
  have e5 : p.2 + (0 : ℤ) = p.2 := by ring
  cases hd : G.diagonal
  all_goals simp only [neighborsSpec, offsets, hd, if_false, if_true, List.append_nil,
    List.nil_append, List.cons_append, fm_cons, List.filterMap_nil,
    Graph.neighbors, nCheck_toList, e1, e3, e4, e5, List.append_assoc]
  all_goals simp

/-- C5, counterexample: the diagonal scale constant in getNodeCost is the
literal 1.41421 = 141421/100000, which is not exactly the square root of 2:
on the all-ones diagonal graph, the diagonal step cost from (0,0) onto
(1,1) is 141421/100000, and that rational is not the real number sqrt 2. -/
theorem diagonal_scale_not_sqrt2 :
    AStar.getNodeCost diagGraph (1, 1) (some (0, 0)) = 141421 / 100000 ∧
    ((AStar.getNodeCost diagGraph (1, 1) (some (0, 0)) : ℚ) : ℝ) ≠ Real.sqrt 2 := by
  have h1 : AStar.getNodeCost diagGraph (1, 1) (some (0, 0)) = 141421 / 100000 := by
    norm_num [AStar.getNodeCost, Graph.weight, cellAt, diagGraph]
  refine ⟨h1, ?_⟩
  rw [h1]
  intro heq
  have h2 : ((141421 / 100000 : ℚ) : ℝ) ^ 2 ≠ 2 := by
    push_cast
    norm_num
  apply h2
  rw [heq, Real.sq_sqrt]
  norm_num

/-- C5, amended: the candidate cost of an expansion step equals current.g
plus the neighbor's weight scaled by the constant 1.41421 (the source's
rational approximation of the square root of 2, not exactly sqrt 2) when
the step is diagonal, and unscaled otherwise; the step cost depends only on
the destination cell's weight and on whether the step is diagonal. -/
theorem step_cost_spec :
    (∀ (G : Graph) (cur n : Pos), AStar.getNodeCost G n (some cur) =
      stepCostSpec (G.weight n) (decide (cur.1 ≠ n.1 ∧ cur.2 ≠ n.2))) ∧
    (∀ (heu : Pos → Pos → ℚ) (endPos : Pos) (closest : Bool) (cur : Pos)
      (s : LoopState) (n : Pos),
      (expandStep heu endPos closest cur s n).relaxLog = s.relaxLog ∨
      ∃ hv, (expandStep heu endPos closest cur s n).relaxLog =
        s.relaxLog ++ [(n, hv, (s.graph.trans cur).g +
          AStar.getNodeCost s.graph n (some cur))]) ∧
    (∀ (G1 G2 : Graph) (n1 n2 cur1 cur2 : Pos), G1.weight n1 = G2.weight n2 →
      ((cur1.1 ≠ n1.1 ∧ cur1.2 ≠ n1.2) ↔ (cur2.1 ≠ n2.1 ∧ cur2.2 ≠ n2.2)) →
      AStar.getNodeCost G1 n1 (some cur1) = AStar.getNodeCost G2 n2 (some cur2)) := by
  refine ⟨?_, ?_, ?_⟩
  · intro G cur n
    unfold AStar.getNodeCost stepCostSpec
    by_cases h : (cur.1 ≠ n.1 ∧ cur.2 ≠ n.2) <;> simp [h]
  · intro heu endPos closest cur s n
    simp only [expandStep]
    split
    · exact Or.inl rfl
    · split
      · split
        · exact Or.inr ⟨_, rfl⟩
        · exact Or.inr ⟨_, rfl⟩
      · exact Or.inl rfl
  · intro G1 G2 n1 n2 cur1 cur2 hw hiff
    unfold AStar.getNodeCost
    dsimp only []
    by_cases h : (cur1.1 ≠ n1.1 ∧ cur1.2 ≠ n1.2)
    · rw [if_pos h, if_pos (hiff.mp h), hw]
    · rw [if_neg h, if_neg (fun hc => h (hiff.mpr hc)), hw]

theorem push_nil {α β : Type} [LinearOrder β] (score : α → β) (e : α) :
    BinaryHeap.push score [] e = [e] := rfl

theorem pop_singleton {α β : Type} [LinearOrder β] (score : α → β) (a : α) :
    BinaryHeap.pop score [a] = (some a, []) := rfl

theorem pathTo_parent_none {G : Graph} {p : Pos} (h : (G.trans p).parent = none) :
    ∀ fuel, AStar.pathTo G fuel p = some [] := by
  intro fuel
  cases fuel <;> simp [AStar.pathTo, h]

theorem cleanDirty_baseline {G : Graph} (hb : Baseline G) :
    ∀ p, (G.cleanDirty).trans p = baselineNode := by
  intro p
  show ((G.dirtyNodes).foldl AStar.cleanNode G).trans p = _
  by_cases h : p ∈ G.dirtyNodes
  · exact foldl_cleanNode_mem _ _ _ h
  · rw [foldl_cleanNode_not_mem _ _ _ h]
    exact hb p

/-- C8: on a graph at baseline, search(graph, s, s) pops the goal on the
first extraction (the pop log is exactly [s]) and returns an empty path,
without expanding any neighbors: only s's transient state changes (and only
its h field is set), nothing but the seed push ever enters the heap, and no
relaxation happens. -/
theorem search_start_eq_end (G : Graph) (s : Pos) (closest : Bool)
    (heu : Pos → Pos → ℚ) (fuel : Nat) (hbase : Baseline G) :
    ∃ r, AStar.search G s s closest heu (fuel + 1) = some r ∧
      r.found = true ∧ r.path = [] ∧ r.popLog = [s] ∧
      r.pushLog = [(s, false, false)] ∧ r.relaxLog = [] ∧ r.dupFlag = false ∧
      r.graph.trans s = { baselineNode with h := heu s s } ∧
      (∀ p, p ≠ s → r.graph.trans p = G.trans p) := by
  have hG0 : ∀ p, (G.cleanDirty).trans p = baselineNode := cleanDirty_baseline hbase
  unfold AStar.search
  simp only []
  set G1 := Graph.markDirty
    (setTrans G.cleanDirty s { (G.cleanDirty).trans s with h := heu s s }) s with hG1def
  have hG1s : G1.trans s = { baselineNode with h := heu s s } := by
    simp [hG1def, Graph.markDirty, setTrans, hG0 s]
  have hG1o : ∀ p, p ≠ s → G1.trans p = baselineNode := by
    intro p hp
    simp [hG1def, Graph.markDirty, setTrans, hp, hG0 p]
  have hvis : (G1.trans s).visited = false := by
    rw [hG1s]
    rfl
  have hpar : (G1.trans s).parent = none := by
    rw [hG1s]
    rfl
  refine ⟨{ found := true, path := [], graph := G1, pushLog := [(s, false, false)],
            popLog := [s], relaxLog := [], dupFlag := false }, ?_,
    rfl, rfl, rfl, rfl, rfl, rfl, hG1s, fun p hp => (hG1o p hp).trans (hbase p).symm⟩
  rw [push_nil]
  simp only [searchLoop, BinaryHeap.size, List.length_singleton, Nat.zero_lt_one, if_true,
    pop_singleton, if_pos rfl, pathTo_parent_none hpar, Option.map_some, hvis]
  simp [hvis]

theorem search_start_eq_end_witness :
    ∃ r, AStar.search tinyGraph (0, 0) (0, 0) false AStar.manhattan (0 + 1) = some r ∧
      r.found = true ∧ r.path = [] ∧ r.popLog = [(0, 0)] ∧
      r.pushLog = [((0, 0), false, false)] ∧ r.relaxLog = [] ∧ r.dupFlag = false ∧
      r.graph.trans (0, 0) = { baselineNode with h := AStar.manhattan (0, 0) (0, 0) } ∧
      (∀ p, p ≠ (0, 0) → r.graph.trans p = tinyGraph.trans p) :=
  search_start_eq_end tinyGraph (0, 0) false AStar.manhattan 0 (fun _ => rfl)

theorem nonnegWeights_of_grid {G : Graph}
    (h : ∀ row ∈ G.grid, ∀ w ∈ row, (0 : ℚ) ≤ w) : NonnegWeights G := by
  intro p
  unfold Graph.weight cellAt
  split
  · simp
  · split
    · simp
    · rename_i row hrow
      rcases hw : row[p.2.toNat]? with _ | w
      · simp
      · simpa using h row (List.getElem?_mem hrow) w (List.getElem?_mem hw)

theorem getNodeCost_nonneg {G : Graph} (hw : NonnegWeights G) (n : Pos)
    (q : Option Pos) : 0 ≤ AStar.getNodeCost G n q := by
  unfold AStar.getNodeCost
  rcases q with _ | q
  · exact hw n
  · dsimp only []
    split
    · have := hw n
      positivity
    · exact hw n

theorem getNodeCost_ge_weight {G : Graph} (hw : NonnegWeights G) (n : Pos)
    (q : Pos) : G.weight n ≤ AStar.getNodeCost G n (some q) := by
  unfold AStar.getNodeCost
  dsimp only []
  split
  · calc G.weight n = G.weight n * 1 := by ring
    _ ≤ G.weight n * (141421 / 100000) := by
        apply mul_le_mul_of_nonneg_left _ (hw n)
        norm_num
  · exact le_refl _

theorem pathCost_nonneg {G : Graph} (hw : NonnegWeights G) :
    ∀ (l : List Pos) (p : Pos), 0 ≤ pathCost G p l
  | [], _ => le_refl 0
  | q :: rest, p => by
    unfold pathCost
    have h1 := getNodeCost_nonneg hw q (some p)
    have h2 := pathCost_nonneg hw rest q
    linarith

theorem pathCost_last_bound {G : Graph} (hw : NonnegWeights G) :
    ∀ (l : List Pos) (p e : Pos), l ≠ [] → l.getLastD p = e →
      G.weight e ≤ pathCost G p l
  | [], _, _, hne, _ => absurd rfl hne
  | q :: rest, p, e, _, hlast => by
    unfold pathCost
    rcases List.eq_nil_or_concat rest with rfl | _
    · have he : q = e := by simpa using hlast
      subst he
      have := getNodeCost_ge_weight hw q p
      simp only [pathCost]
      linarith
    · have hrne : rest ≠ [] := by
        rename_i hcon
        obtain ⟨_, _, rfl⟩ := hcon
        simp
      have hlast2 : rest.getLastD q = e := by
        rwa [List.getLastD_cons] at hlast
      have h1 := getNodeCost_nonneg hw q (some p)
      have h2 := pathCost_last_bound hw rest q e hrne hlast2
      linarith

theorem cexHeu_admissible : Admissible cexGraph cexHeu (2, 2) := by
  have hw : NonnegWeights cexGraph := nonnegWeights_of_grid (by decide)
  intro p l hvalid
  obtain ⟨hok, hlast⟩ := hvalid
  unfold cexHeu
  by_cases hp : p = ((0 : ℤ), (1 : ℤ))
  · rw [if_pos hp]
    have hne : l ≠ [] := by
      intro hcon
      subst hcon
      rw [hp] at hlast
      exact absurd hlast (by decide)
    have hb := pathCost_last_bound hw l p (2, 2) hne hlast
    have hwe : cexGraph.weight (2, 2) = 20 := by decide
    rw [hwe] at hb
    linarith
  · rw [if_neg hp]
    exact pathCost_nonneg hw l p

set_option maxRecDepth 100000 in
/-- C1, counterexample: on the 3 by 3 grid cexGraph (strictly positive
weights on passable cells, 4-directional movement) with the admissible
heuristic cexHeu and reachable goal (2,2), search returns the path through
the expensive corridor, of total cost 32, although the valid path
cexCheapPath costs 23: with a closed list and an admissible but
inconsistent heuristic the returned cost is not the true minimum. -/
theorem search_admissible_not_optimal :
    NonnegWeights cexGraph ∧
    Admissible cexGraph cexHeu (2, 2) ∧
    IsValidPath cexGraph (0, 0) (2, 2) cexCheapPath ∧
    (AStar.search cexGraph (0, 0) (2, 2) false cexHeu 10).map SearchRun.path =
      some cexFoundPath ∧
    (AStar.search cexGraph (0, 0) (2, 2) false cexHeu 10).map SearchRun.found =
      some true ∧
    pathCost cexGraph (0, 0) cexFoundPath = 32 ∧
    pathCost cexGraph (0, 0) cexCheapPath = 23 ∧
    ¬(∀ q, IsValidPath cexGraph (0, 0) (2, 2) q →
        pathCost cexGraph (0, 0) cexFoundPath ≤ pathCost cexGraph (0, 0) q) := by
  have h32 : pathCost cexGraph (0, 0) cexFoundPath = 32 := by
    with_unfolding_all decide
  have h23 : pathCost cexGraph (0, 0) cexCheapPath = 23 := by
    with_unfolding_all decide
  have hcheap : IsValidPath cexGraph (0, 0) (2, 2) cexCheapPath := by
    with_unfolding_all decide
  refine ⟨nonnegWeights_of_grid (by decide), cexHeu_admissible, hcheap, ?_, ?_,
    h32, h23, ?_⟩
  · with_unfolding_all decide
  · with_unfolding_all decide
  · intro hall
    have h1 := hall cexCheapPath hcheap
    rw [h32, h23] at h1
    norm_num at h1

theorem setTrans_trans_self (G : Graph) (p : Pos) (t : NodeTrans) :
    (setTrans G p t).trans p = t := by
  simp [setTrans]

theorem setTrans_trans_ne (G : Graph) (p : Pos) (t : NodeTrans) {q : Pos}
    (h : q ≠ p) : (setTrans G p t).trans q = G.trans q := by
  simp [setTrans, h]

theorem markDirty_trans (G : Graph) (p : Pos) : (G.markDirty p).trans = G.trans := rfl

theorem setTrans_weight (G : Graph) (p : Pos) (t : NodeTrans) (q : Pos) :
    (setTrans G p t).weight q = G.weight q := rfl

theorem setTrans_neighbors (G : Graph) (p : Pos) (t : NodeTrans) (q : Pos) :
    (setTrans G p t).neighbors q = G.neighbors q := rfl

theorem markDirty_weight (G : Graph) (p q : Pos) : (G.markDirty p).weight q = G.weight q := rfl

theorem markDirty_neighbors (G : Graph) (p q : Pos) :
    (G.markDirty p).neighbors q = G.neighbors q := rfl

theorem setTrans_getNodeCost (G : Graph) (p : Pos) (t : NodeTrans) (n : Pos)
    (q : Option Pos) : AStar.getNodeCost (setTrans G p t) n q = AStar.getNodeCost G n q := rfl

theorem markDirty_getNodeCost (G : Graph) (p : Pos) (n : Pos) (q : Option Pos) :
    AStar.getNodeCost (G.markDirty p) n q = AStar.getNodeCost G n q := rfl

theorem setClosed_trans_self (G : Graph) (p : Pos) :
    (setClosed G p).trans p = { G.trans p with closed := true } := by
  simp [setClosed, setTrans]

theorem setClosed_trans_ne (G : Graph) (p : Pos) {q : Pos} (h : q ≠ p) :
    (setClosed G p).trans q = G.trans q := by
  simp [setClosed, setTrans, h]

theorem setClosed_weight (G : Graph) (p q : Pos) : (setClosed G p).weight q = G.weight q := rfl

theorem setClosed_neighbors (G : Graph) (p q : Pos) :
    (setClosed G p).neighbors q = G.neighbors q := rfl

theorem setClosed_getNodeCost (G : Graph) (p : Pos) (n : Pos) (q : Option Pos) :
    AStar.getNodeCost (setClosed G p) n q = AStar.getNodeCost G n q := rfl

theorem sinkDown_count {α β : Type} [DecidableEq α] [LinearOrder β] (score : α → β)
    (l : List α) (n : Nat) (x : α) :
    (BinaryHeap.sinkDown score l n).count x = l.count x := by
  unfold BinaryHeap.sinkDown
  split
  · rfl
  · rename_i element hsome
    exact sinkTo_count score element n l n hsome x

theorem bubbleUp_count {α β : Type} [DecidableEq α] [LinearOrder β] (score : α → β)
    (l : List α) (n : Nat) (x : α) :
    (BinaryHeap.bubbleUp score l n).count x = l.count x := by
  unfold BinaryHeap.bubbleUp
  split
  · rfl
  · rename_i element hsome
    exact bubbleTo_count score element (score element) l.length l n hsome x

theorem push_count {α β : Type} [DecidableEq α] [LinearOrder β] (score : α → β)
    (l : List α) (e x : α) :
    (BinaryHeap.push score l e).count x = l.count x + (if e = x then 1 else 0) := by
  unfold BinaryHeap.push
  rw [sinkDown_count, List.count_append]
  by_cases hex : e = x
  · subst hex
    simp
  · simp [List.count_singleton, hex, Ne.symm hex]

theorem rescoreElement_count {α β : Type} [DecidableEq α] [LinearOrder β] (score : α → β)
    (l : List α) (e x : α) :
    (BinaryHeap.rescoreElement score l e).count x = l.count x := by
  unfold BinaryHeap.rescoreElement
  exact sinkDown_count score l _ x

theorem count_conv {α : Type} [DecidableEq α] [inst : BEq α] [LawfulBEq α]
    (l : List α) (x : α) :
    @List.count α inst x l = @List.count α instBEqOfDecidableEq x l := by
  induction l with
  | nil => rfl
  | cons a t ih =>
    rw [@List.count_cons α inst, @List.count_cons α instBEqOfDecidableEq, ih]
    congr 1
    simp

theorem push_count_b {α β : Type} [DecidableEq α] [inst : BEq α] [LawfulBEq α]
    [LinearOrder β] (score : α → β) (l : List α) (e x : α) :
    @List.count α inst x (BinaryHeap.push score l e)
      = @List.count α inst x l + (if e = x then 1 else 0) := by
  rw [count_conv (BinaryHeap.push score l e) x, count_conv l x, push_count]

theorem rescoreElement_count_b {α β : Type} [DecidableEq α] [inst : BEq α] [LawfulBEq α]
    [LinearOrder β] (score : α → β) (l : List α) (e x : α) :
    @List.count α inst x (BinaryHeap.rescoreElement score l e)
      = @List.count α inst x l := by
  rw [count_conv (BinaryHeap.rescoreElement score l e) x, count_conv l x,
    rescoreElement_count]

theorem pop_count_le {α β : Type} [DecidableEq α] [LinearOrder β] (score : α → β)
    (l : List α) (x : α) : ((BinaryHeap.pop score l).2).count x ≤ l.count x := by
  unfold BinaryHeap.pop
  split
  · exact le_refl _
  · rename_i e hlast
    have hne : l ≠ [] := by
      intro hcon
      rw [hcon] at hlast
      cases hlast
    have hegl : e = l.getLast hne := by
      rw [List.getLast?_eq_getLast l hne] at hlast
      exact (Option.some.inj hlast).symm
    have hl : l.dropLast ++ [e] = l := by
      rw [hegl]
      exact List.dropLast_append_getLast hne
    have hcl : l.count x = l.dropLast.count x + (if (e == x) = true then 1 else 0) := by
      conv_lhs => rw [← hl]
      rw [List.count_append]
      simp [List.count_singleton]
    simp only []
    split
    · rename_i hlen
      rw [bubbleUp_count]
      have := List.count_set e x l.dropLast 0 (by simpa using hlen)
      omega
    · have : l.dropLast.count x ≤ l.count x := (List.dropLast_sublist l).count_le x
      exact this

theorem pop_fst_mem {α β : Type} [LinearOrder β] {score : α → β} {l : List α}
    {cur : α} {l2 : List α} (h : BinaryHeap.pop score l = (some cur, l2)) :
    cur ∈ l := by
  unfold BinaryHeap.pop at h
  split at h
  · rw [Prod.mk.injEq] at h
    exact List.mem_of_mem_head? (h.1 ▸ rfl)
  · dsimp only [] at h
    split at h <;>
    · rw [Prod.mk.injEq] at h
      exact List.mem_of_mem_head? (h.1 ▸ rfl)

theorem mem_neighbors_shape {G : Graph} {p n : Pos} (h : n ∈ G.neighbors p) :
    ∃ d ∈ offsets G.diagonal, n = (p.1 + d.1, p.2 + d.2) ∧ G.hasNode n = true := by
  rw [neighbors_eq_spec] at h
  unfold neighborsSpec at h
  rw [List.mem_filterMap] at h
  obtain ⟨d, hd, hfd⟩ := h
  split_ifs at hfd with hh
  cases hfd
  exact ⟨d, hd, rfl, hh⟩

theorem mem_neighbors_ne {G : Graph} {p n : Pos} (h : n ∈ G.neighbors p) : n ≠ p := by
  obtain ⟨d, hd, rfl, _⟩ := mem_neighbors_shape h
  intro hcon
  have h1 : p.1 + d.1 = p.1 := congrArg Prod.fst hcon
  have h2 : p.2 + d.2 = p.2 := congrArg Prod.snd hcon
  have hd0 : d = ((0 : ℤ), (0 : ℤ)) := Prod.ext (by omega) (by omega)
  subst hd0
  unfold offsets at hd
  cases hdg : G.diagonal <;> rw [hdg] at hd <;> revert hd <;> decide

theorem mem_neighbors_hasNode {G : Graph} {p n : Pos} (h : n ∈ G.neighbors p) :
    G.hasNode n = true := by
  obtain ⟨d, _, _, hh⟩ := mem_neighbors_shape h
  exact hh

theorem expandStep_characterize (heu : Pos → Pos → ℚ) (endPos : Pos) (closest : Bool)
    (cur : Pos) (s : LoopState) (n : Pos) :
    ((expandStep heu endPos closest cur s n = s) ∧
      ((s.graph.trans n).closed = true ∨ AStar.isNodeWall s.graph n = true ∨
        ((s.graph.trans n).visited = true ∧
          ¬((s.graph.trans cur).g + AStar.getNodeCost s.graph n (some cur) <
            (s.graph.trans n).g)))) ∨
    ((expandStep heu endPos closest cur s n = relaxResult heu endPos closest cur s n) ∧
      (s.graph.trans n).closed = false ∧ AStar.isNodeWall s.graph n = false ∧
      ((s.graph.trans n).visited = false ∨
        (s.graph.trans cur).g + AStar.getNodeCost s.graph n (some cur) <
          (s.graph.trans n).g)) := by
  by_cases h1 : ((s.graph.trans n).closed = true ∨ AStar.isNodeWall s.graph n = true)
  · left
    constructor
    · unfold expandStep
      rw [if_pos h1]
    · rcases h1 with h | h
      · exact Or.inl h
      · exact Or.inr (Or.inl h)
  · have hc : (s.graph.trans n).closed = false := by
      rcases hcv : (s.graph.trans n).closed with _ | _
      · rfl
      · exact absurd (Or.inl hcv) h1
    have hwall : AStar.isNodeWall s.graph n = false := by
      rcases hwv : AStar.isNodeWall s.graph n with _ | _
      · rfl
      · exact absurd (Or.inr hwv) h1
    by_cases h2 : ((s.graph.trans n).visited = false ∨
        (s.graph.trans cur).g + AStar.getNodeCost s.graph n (some cur) <
          (s.graph.trans n).g)
    · right
      refine ⟨?_, hc, hwall, h2⟩
      unfold expandStep relaxResult
      rw [if_neg h1, if_pos h2]
    · left
      constructor
      · unfold expandStep
        rw [if_neg h1, if_neg h2]
      · push_neg at h2
        refine Or.inr (Or.inr ⟨?_, not_lt.mpr h2.2⟩)
        rcases hvv : (s.graph.trans n).visited with _ | _
        · exact absurd hvv h2.1
        · rfl

theorem relaxResult_graph (heu : Pos → Pos → ℚ) (endPos : Pos) (closest : Bool)
    (cur : Pos) (s : LoopState) (n : Pos) :
    (relaxResult heu endPos closest cur s n).graph =
      Graph.markDirty (setTrans s.graph n
        { f := ((s.graph.trans cur).g + AStar.getNodeCost s.graph n (some cur)) +
            (if (s.graph.trans n).h = 0 then heu n endPos else (s.graph.trans n).h),
          g := (s.graph.trans cur).g + AStar.getNodeCost s.graph n (some cur),
          h := if (s.graph.trans n).h = 0 then heu n endPos else (s.graph.trans n).h,
          visited := true, closed := (s.graph.trans n).closed,
          parent := some cur }) n := by
  unfold relaxResult
  cases hv : (s.graph.trans n).visited <;> simp [hv]

theorem relaxResult_popLog (heu : Pos → Pos → ℚ) (endPos : Pos) (closest : Bool)
    (cur : Pos) (s : LoopState) (n : Pos) :
    (relaxResult heu endPos closest cur s n).popLog = s.popLog := by
  unfold relaxResult
  cases hv : (s.graph.trans n).visited <;> simp [hv]

theorem relaxResult_relaxLog (heu : Pos → Pos → ℚ) (endPos : Pos) (closest : Bool)
    (cur : Pos) (s : LoopState) (n : Pos) :
    (relaxResult heu endPos closest cur s n).relaxLog = s.relaxLog ++
      [(n, if (s.graph.trans n).h = 0 then heu n endPos else (s.graph.trans n).h,
        (s.graph.trans cur).g + AStar.getNodeCost s.graph n (some cur))] := by
  unfold relaxResult
  cases hv : (s.graph.trans n).visited <;> simp [hv]

theorem relaxResult_heap_unvisited (heu : Pos → Pos → ℚ) (endPos : Pos)
    (closest : Bool) (cur : Pos) (s : LoopState) (n : Pos)
    (hv : (s.graph.trans n).visited = false) :
    (relaxResult heu endPos closest cur s n).heap =
      BinaryHeap.push (fScore (relaxResult heu endPos closest cur s n).graph) s.heap n := by
  rw [relaxResult_graph]
  unfold relaxResult
  simp [hv]

theorem relaxResult_heap_visited (heu : Pos → Pos → ℚ) (endPos : Pos)
    (closest : Bool) (cur : Pos) (s : LoopState) (n : Pos)
    (hv : (s.graph.trans n).visited = true) :
    (relaxResult heu endPos closest cur s n).heap =
      BinaryHeap.rescoreElement (fScore (relaxResult heu endPos closest cur s n).graph)
        s.heap n := by
  rw [relaxResult_graph]
  unfold relaxResult
  simp [hv]

theorem relaxResult_pushLog_unvisited (heu : Pos → Pos → ℚ) (endPos : Pos)
    (closest : Bool) (cur : Pos) (s : LoopState) (n : Pos)
    (hv : (s.graph.trans n).visited = false) :
    (relaxResult heu endPos closest cur s n).pushLog = s.pushLog ++ [(n, false, true)] := by
  unfold relaxResult
  simp [hv, Graph.markDirty, setTrans]

theorem relaxResult_pushLog_visited (heu : Pos → Pos → ℚ) (endPos : Pos)
    (closest : Bool) (cur : Pos) (s : LoopState) (n : Pos)
    (hv : (s.graph.trans n).visited = true) :
    (relaxResult heu endPos closest cur s n).pushLog = s.pushLog := by
  unfold relaxResult
  simp [hv]

theorem relaxResult_dupFlag_unvisited (heu : Pos → Pos → ℚ) (endPos : Pos)
    (closest : Bool) (cur : Pos) (s : LoopState) (n : Pos)
    (hv : (s.graph.trans n).visited = false) :
    (relaxResult heu endPos closest cur s n).dupFlag =
      (s.dupFlag || decide (n ∈ s.heap)) := by
  unfold relaxResult
  simp [hv]

theorem relaxResult_dupFlag_visited (heu : Pos → Pos → ℚ) (endPos : Pos)
    (closest : Bool) (cur : Pos) (s : LoopState) (n : Pos)
    (hv : (s.graph.trans n).visited = true) :
    (relaxResult heu endPos closest cur s n).dupFlag = s.dupFlag := by
  unfold relaxResult
  simp [hv]

theorem relaxResult_closestNode (heu : Pos → Pos → ℚ) (endPos : Pos)
    (closest : Bool) (cur : Pos) (s : LoopState) (n : Pos) :
    (relaxResult heu endPos closest cur s n).closestNode = n ∨
    (relaxResult heu endPos closest cur s n).closestNode = s.closestNode := by
  unfold relaxResult
  cases hv : (s.graph.trans n).visited <;> simp [hv] <;> split_ifs <;> tauto

theorem relaxResult_statics (heu : Pos → Pos → ℚ) (endPos : Pos) (closest : Bool)
    (cur : Pos) (s : LoopState) (n : Pos) :
    (relaxResult heu endPos closest cur s n).graph.grid = s.graph.grid ∧
    (relaxResult heu endPos closest cur s n).graph.diagonal = s.graph.diagonal ∧
    (∀ p, (relaxResult heu endPos closest cur s n).graph.weight p = s.graph.weight p) ∧
    (∀ p, (relaxResult heu endPos closest cur s n).graph.neighbors p =
      s.graph.neighbors p) ∧
    (∀ a b, AStar.getNodeCost (relaxResult heu endPos closest cur s n).graph a b =
      AStar.getNodeCost s.graph a b) := by
  rw [relaxResult_graph]
  exact ⟨rfl, rfl, fun _ => rfl, fun _ => rfl, fun _ _ => rfl⟩

theorem relaxResult_loopInv (heu : Pos → Pos → ℚ) (endPos : Pos) (closest : Bool)
    (cur : Pos) (s : LoopState) (n : Pos) (startPos : Pos)
    (hinv : LoopInv startPos s)
    (hcur : (s.graph.trans cur).closed = true)
    (hn : n ∈ s.graph.neighbors cur)
    (hnc : (s.graph.trans n).closed = false)
    (hnw : AStar.isNodeWall s.graph n = false) :
    LoopInv startPos (relaxResult heu endPos closest cur s n) := by
  obtain ⟨hPar, hHeap, hPush, hHC, hPE, hDup⟩ := hinv
  obtain ⟨hParVis, hParClosed, hSpar, hSg, hSclosed, hSvis⟩ := hPar
  have hns : n ≠ startPos := by
    intro hcon
    rw [hcon, hSclosed] at hnc
    cases hnc
  have hncur : n ≠ cur := by
    intro hcon
    rw [hcon, hcur] at hnc
    cases hnc
  have hwn : s.graph.weight n ≠ 0 := by
    unfold AStar.isNodeWall at hnw
    exact of_decide_eq_false hnw
  obtain ⟨hgrid, hdiag, hwt, hnb, hcost⟩ := relaxResult_statics heu endPos closest cur s n
  have hGn : (relaxResult heu endPos closest cur s n).graph.trans n =
      { f := ((s.graph.trans cur).g + AStar.getNodeCost s.graph n (some cur)) +
          (if (s.graph.trans n).h = 0 then heu n endPos else (s.graph.trans n).h),
        g := (s.graph.trans cur).g + AStar.getNodeCost s.graph n (some cur),
        h := if (s.graph.trans n).h = 0 then heu n endPos else (s.graph.trans n).h,
        visited := true, closed := (s.graph.trans n).closed,
        parent := some cur } := by
    rw [relaxResult_graph, markDirty_trans, setTrans_trans_self]
  have hGo : ∀ p, p ≠ n → (relaxResult heu endPos closest cur s n).graph.trans p =
      s.graph.trans p := by
    intro p hp
    rw [relaxResult_graph, markDirty_trans, setTrans_trans_ne _ _ _ hp]
  refine ⟨⟨?_, ?_, ?_, ?_, ?_, ?_⟩, ?_, ?_, ?_, ?_, ?_⟩
  · -- visited nodes have valid recorded parent edges
    intro p hpvis
    by_cases hpn : p = n
    · subst hpn
      refine ⟨cur, ?_, ?_, ?_, ?_, ?_⟩
      · rw [hGn]
      · rw [hGo cur (Ne.symm hncur)]
        exact hcur
      · rw [hnb]
        exact hn
      · rw [hwt]
        exact hwn
      · rw [hGn, hGo cur (Ne.symm hncur), hcost]
    · rw [hGo p hpn] at hpvis ⊢
      obtain ⟨q, hq1, hq2, hq3, hq4, hq5⟩ := hParVis p hpvis
      have hqn : q ≠ n := by
        intro hcon
        rw [hcon, hnc] at hq2
        cases hq2
      refine ⟨q, hq1, ?_, ?_, ?_, ?_⟩
      · rw [hGo q hqn]
        exact hq2
      · rw [hnb]
        exact hq3
      · rw [hwt]
        exact hq4
      · rw [hGo q hqn, hcost]
        exact hq5
  · -- closed nodes are visited or the start
    intro p hpclosed
    by_cases hpn : p = n
    · subst hpn
      rw [hGn] at hpclosed
      simp only [] at hpclosed
      rw [hnc] at hpclosed
      cases hpclosed
    · rw [hGo p hpn] at hpclosed
      rcases hParClosed p hpclosed with h | h
      · left
        rw [hGo p hpn]
        exact h
      · exact Or.inr h
  · rw [hGo startPos (Ne.symm hns)]
    exact hSpar
  · rw [hGo startPos (Ne.symm hns)]
    exact hSg
  · rw [hGo startPos (Ne.symm hns)]
    exact hSclosed
  · rw [hGo startPos (Ne.symm hns)]
    exact hSvis
  · -- HeapInv
    intro p hp
    cases hv : (s.graph.trans n).visited
    · rw [relaxResult_heap_unvisited heu endPos closest cur s n hv] at hp
      have hcnt : 0 < (BinaryHeap.push (fScore (relaxResult heu endPos closest cur s n).graph)
          s.heap n).count p := List.count_pos_iff.mpr hp
      rw [push_count_b] at hcnt
      by_cases hpn : p = n
      · subst hpn
        left
        rw [hGn]
      · rw [if_neg (fun hcon => hpn hcon.symm)] at hcnt
        have hmem := List.count_pos_iff.mp (by omega : 0 < s.heap.count p)
        rcases hHeap p hmem with h | h
        · left
          rw [hGo p hpn]
          exact h
        · exact Or.inr h
    · rw [relaxResult_heap_visited heu endPos closest cur s n hv] at hp
      have hcnt : 0 < (BinaryHeap.rescoreElement
          (fScore (relaxResult heu endPos closest cur s n).graph) s.heap n).count p :=
        List.count_pos_iff.mpr hp
      rw [rescoreElement_count_b] at hcnt
      have hmem := List.count_pos_iff.mp hcnt
      by_cases hpn : p = n
      · subst hpn
        left
        rw [hGn]
      · rcases hHeap p hmem with h | h
        · left
          rw [hGo p hpn]
          exact h
        · exact Or.inr h
  · -- PushInv
    cases hv : (s.graph.trans n).visited
    · rw [relaxResult_pushLog_unvisited heu endPos closest cur s n hv]
      constructor
      · rw [List.map_append, List.count_append]
        have h0 : List.count startPos ([(n, false, true)].map Prod.fst) = 0 := by
          simp [List.count_cons, hns]
        rw [h0]
        simpa using hPush.1
      · intro p hp
        rw [List.map_append, List.count_append]
        by_cases hpn : p = n
        · subst hpn
          rw [hPush.2 p hp]
          rw [hv, hGn]
          simp
        · rw [hPush.2 p hp, hGo p hpn]
          simp [List.count_cons, Ne.symm hpn]
    · rw [relaxResult_pushLog_visited heu endPos closest cur s n hv]
      refine ⟨hPush.1, ?_⟩
      intro p hp
      rw [hPush.2 p hp]
      by_cases hpn : p = n
      · subst hpn
        rw [hv, hGn]
      · rw [hGo p hpn]
  · -- HeapCountInv
    intro p
    cases hv : (s.graph.trans n).visited
    · rw [relaxResult_heap_unvisited heu endPos closest cur s n hv,
        relaxResult_pushLog_unvisited heu endPos closest cur s n hv]
      rw [push_count_b, List.map_append, List.count_append]
      have := hHC p
      simp only [List.map_cons, List.map_nil, List.count_cons, List.count_nil]
      by_cases hpn : n = p <;> simp [hpn] <;> omega
    · rw [relaxResult_heap_visited heu endPos closest cur s n hv,
        relaxResult_pushLog_visited heu endPos closest cur s n hv]
      rw [rescoreElement_count_b]
      exact hHC p
  · -- PushEntriesOk
    cases hv : (s.graph.trans n).visited
    · rw [relaxResult_pushLog_unvisited heu endPos closest cur s n hv]
      intro e he
      rcases List.mem_append.mp he with h | h
      · exact hPE e h
      · simp only [List.mem_singleton] at h
        subst h
        exact ⟨rfl, fun _ => rfl⟩
    · rw [relaxResult_pushLog_visited heu endPos closest cur s n hv]
      exact hPE
  · -- dupFlag stays false
    cases hv : (s.graph.trans n).visited
    · rw [relaxResult_dupFlag_unvisited heu endPos closest cur s n hv, hDup]
      have hcnt := hHC n
      rw [hPush.2 n hns, hv] at hcnt
      simp at hcnt
      have : n ∉ s.heap := by
        intro hcon
        have := List.count_pos_iff.mpr hcon
        omega
      simp [this]
    · rw [relaxResult_dupFlag_visited heu endPos closest cur s n hv]
      exact hDup

theorem relaxResult_closestNode_formula (heu : Pos → Pos → ℚ) (endPos : Pos)
    (closest : Bool) (cur : Pos) (s : LoopState) (n : Pos) :
    (relaxResult heu endPos closest cur s n).closestNode =
      (if closest = true then
        if (if (s.graph.trans n).h = 0 then heu n endPos else (s.graph.trans n).h) <
            ((relaxResult heu endPos closest cur s n).graph.trans s.closestNode).h ∨
            ((if (s.graph.trans n).h = 0 then heu n endPos else (s.graph.trans n).h) =
              ((relaxResult heu endPos closest cur s n).graph.trans s.closestNode).h ∧
              (s.graph.trans cur).g + AStar.getNodeCost s.graph n (some cur) <
                ((relaxResult heu endPos closest cur s n).graph.trans s.closestNode).g)
          then n else s.closestNode
      else s.closestNode) := by
  rw [relaxResult_graph]
  unfold relaxResult
  cases hv : (s.graph.trans n).visited <;> simp [hv]

theorem relaxResult_closest_preserved (heu : Pos → Pos → ℚ) (endPos : Pos)
    (closest : Bool) (cur : Pos) (s : LoopState) (n : Pos) (startPos : Pos) (startH : ℚ)
    (hCI : ClosestInv startPos startH s)
    (hns : n ≠ startPos)
    (hNB : ¬ BeatsStart startH (n,
      (if (s.graph.trans n).h = 0 then heu n endPos else (s.graph.trans n).h),
      (s.graph.trans cur).g + AStar.getNodeCost s.graph n (some cur))) :
    ClosestInv startPos startH (relaxResult heu endPos closest cur s n) := by
  obtain ⟨⟨hh1, hh2, hh3⟩, hcl⟩ := hCI
  have hGo : ∀ p, p ≠ n → (relaxResult heu endPos closest cur s n).graph.trans p =
      s.graph.trans p := by
    intro p hp
    rw [relaxResult_graph, markDirty_trans, setTrans_trans_ne _ _ _ hp]
  have hNB2 : ¬ ((if (s.graph.trans n).h = 0 then heu n endPos else (s.graph.trans n).h)
        < startH ∨
      ((if (s.graph.trans n).h = 0 then heu n endPos else (s.graph.trans n).h) = startH ∧
        (s.graph.trans cur).g + AStar.getNodeCost s.graph n (some cur) < 0)) := hNB
  refine ⟨⟨?_, ?_, ?_⟩, ?_⟩
  · rw [hGo startPos (Ne.symm hns)]
    exact hh1
  · rw [hGo startPos (Ne.symm hns)]
    exact hh2
  · rw [hGo startPos (Ne.symm hns)]
    exact hh3
  · rw [relaxResult_closestNode_formula, hcl, hGo startPos (Ne.symm hns), hh2, hh3]
    rcases closest with _ | _
    · simp
    · rw [if_pos rfl, if_neg hNB2]

theorem cellAt_congr {G1 G2 : Graph} (hg : G1.grid = G2.grid) (x y : ℤ) :
    cellAt G1 x y = cellAt G2 x y := by
  unfold cellAt
  rw [hg]

theorem weight_congr {G1 G2 : Graph} (hg : G1.grid = G2.grid) (p : Pos) :
    G1.weight p = G2.weight p := by
  unfold Graph.weight
  rw [cellAt_congr hg]

theorem hasNode_congr {G1 G2 : Graph} (hg : G1.grid = G2.grid) (p : Pos) :
    G1.hasNode p = G2.hasNode p := by
  unfold Graph.hasNode
  rw [cellAt_congr hg]

theorem neighbors_congr {G1 G2 : Graph} (hg : G1.grid = G2.grid)
    (hd : G1.diagonal = G2.diagonal) (p : Pos) :
    G1.neighbors p = G2.neighbors p := by
  unfold Graph.neighbors nCheck
  simp only [cellAt_congr hg, hd]

theorem isNodeWall_congr {G1 G2 : Graph} (hg : G1.grid = G2.grid) (p : Pos) :
    AStar.isNodeWall G1 p = AStar.isNodeWall G2 p := by
  unfold AStar.isNodeWall
  rw [weight_congr hg]

theorem getNodeCost_congr {G1 G2 : Graph} (hg : G1.grid = G2.grid) (n : Pos)
    (q : Option Pos) : AStar.getNodeCost G1 n q = AStar.getNodeCost G2 n q := by
  unfold AStar.getNodeCost
  cases q <;> simp only [weight_congr hg]

theorem relaxResult_closed (heu : Pos → Pos → ℚ) (endPos : Pos) (closest : Bool)
    (cur : Pos) (s : LoopState) (n : Pos) (p : Pos) :
    ((relaxResult heu endPos closest cur s n).graph.trans p).closed =
      (s.graph.trans p).closed := by
  by_cases hp : p = n
  · subst hp
    rw [relaxResult_graph, markDirty_trans, setTrans_trans_self]
  · rw [relaxResult_graph, markDirty_trans, setTrans_trans_ne _ _ _ hp]

theorem expandStep_closed (heu : Pos → Pos → ℚ) (endPos : Pos) (closest : Bool)
    (cur : Pos) (s : LoopState) (n : Pos) (p : Pos) :
    ((expandStep heu endPos closest cur s n).graph.trans p).closed =
      (s.graph.trans p).closed := by
  rcases expandStep_characterize heu endPos closest cur s n with ⟨heq, _⟩ | ⟨heq, _, _, _⟩ <;>
    rw [heq]
  exact relaxResult_closed heu endPos closest cur s n p

theorem expandStep_grid (heu : Pos → Pos → ℚ) (endPos : Pos) (closest : Bool)
    (cur : Pos) (s : LoopState) (n : Pos) :
    (expandStep heu endPos closest cur s n).graph.grid = s.graph.grid ∧
    (expandStep heu endPos closest cur s n).graph.diagonal = s.graph.diagonal := by
  rcases expandStep_characterize heu endPos closest cur s n with ⟨heq, _⟩ | ⟨heq, _, _, _⟩ <;>
    rw [heq]
  · exact ⟨rfl, rfl⟩
  · rw [relaxResult_graph]
    exact ⟨rfl, rfl⟩

theorem expandStep_popLog (heu : Pos → Pos → ℚ) (endPos : Pos) (closest : Bool)
    (cur : Pos) (s : LoopState) (n : Pos) :
    (expandStep heu endPos closest cur s n).popLog = s.popLog := by
  rcases expandStep_characterize heu endPos closest cur s n with ⟨heq, _⟩ | ⟨heq, _, _, _⟩ <;>
    rw [heq]
  exact relaxResult_popLog heu endPos closest cur s n

theorem expandStep_relaxLog_extends (heu : Pos → Pos → ℚ) (endPos : Pos) (closest : Bool)
    (cur : Pos) (s : LoopState) (n : Pos) :
    ∃ t, (expandStep heu endPos closest cur s n).relaxLog = s.relaxLog ++ t := by
  rcases expandStep_characterize heu endPos closest cur s n with ⟨heq, _⟩ | ⟨heq, _, _, _⟩ <;>
    rw [heq]
  · exact ⟨[], (List.append_nil _).symm⟩
  · exact ⟨_, relaxResult_relaxLog heu endPos closest cur s n⟩

theorem foldl_expandStep_relaxLog_extends (heu : Pos → Pos → ℚ) (endPos : Pos)
    (closest : Bool) (cur : Pos) :
    ∀ (ns : List Pos) (s : LoopState),
    ∃ t, (ns.foldl (expandStep heu endPos closest cur) s).relaxLog = s.relaxLog ++ t := by
  intro ns
  induction ns with
  | nil => exact fun s => ⟨[], (List.append_nil _).symm⟩
  | cons n rest ih =>
    intro s
    obtain ⟨t1, ht1⟩ := expandStep_relaxLog_extends heu endPos closest cur s n
    obtain ⟨t2, ht2⟩ := ih (expandStep heu endPos closest cur s n)
    refine ⟨t1 ++ t2, ?_⟩
    rw [List.foldl_cons, ht2, ht1, List.append_assoc]

theorem expandStep_loopInv (heu : Pos → Pos → ℚ) (endPos : Pos) (closest : Bool)
    (cur : Pos) (s : LoopState) (n : Pos) (startPos : Pos)
    (hinv : LoopInv startPos s)
    (hcur : (s.graph.trans cur).closed = true)
    (hn : n ∈ s.graph.neighbors cur) :
    LoopInv startPos (expandStep heu endPos closest cur s n) := by
  rcases expandStep_characterize heu endPos closest cur s n with ⟨heq, _⟩ | ⟨heq, hc, hw, _⟩ <;>
    rw [heq]
  · exact hinv
  · exact relaxResult_loopInv heu endPos closest cur s n startPos hinv hcur hn hc hw

theorem expandStep_closest (heu : Pos → Pos → ℚ) (endPos : Pos) (closest : Bool)
    (cur : Pos) (s : LoopState) (n : Pos) (startPos : Pos) (startH : ℚ)
    (hinv : LoopInv startPos s)
    (hCI : ClosestInv startPos startH s)
    (hNB : ∀ e ∈ (expandStep heu endPos closest cur s n).relaxLog, ¬ BeatsStart startH e) :
    ClosestInv startPos startH (expandStep heu endPos closest cur s n) := by
  rcases expandStep_characterize heu endPos closest cur s n with ⟨heq, _⟩ | ⟨heq, hc, hw, _⟩
  · rw [heq]
    exact hCI
  · have hns : n ≠ startPos := by
      intro hcon
      rw [hcon, hinv.1.2.2.2.2.1] at hc
      cases hc
    have hmem : (n,
        (if (s.graph.trans n).h = 0 then heu n endPos else (s.graph.trans n).h),
        (s.graph.trans cur).g + AStar.getNodeCost s.graph n (some cur)) ∈
        (expandStep heu endPos closest cur s n).relaxLog := by
      rw [heq, relaxResult_relaxLog]
      simp
    rw [heq]
    exact relaxResult_closest_preserved heu endPos closest cur s n startPos startH hCI hns
      (hNB _ hmem)

theorem foldl_expandStep_loopInv (heu : Pos → Pos → ℚ) (endPos : Pos) (closest : Bool)
    (cur : Pos) (startPos : Pos) :
    ∀ (ns : List Pos) (s : LoopState),
    LoopInv startPos s →
    (s.graph.trans cur).closed = true →
    (∀ n ∈ ns, n ∈ s.graph.neighbors cur) →
    LoopInv startPos (ns.foldl (expandStep heu endPos closest cur) s) := by
  intro ns
  induction ns with
  | nil => exact fun s h _ _ => h
  | cons n rest ih =>
    intro s hinv hcur hns
    rw [List.foldl_cons]
    apply ih
    · exact expandStep_loopInv heu endPos closest cur s n startPos hinv hcur
        (hns n (List.mem_cons_self n rest))
    · rw [expandStep_closed]
      exact hcur
    · intro m hm
      rw [neighbors_congr (expandStep_grid heu endPos closest cur s n).1
        (expandStep_grid heu endPos closest cur s n).2]
      exact hns m (List.mem_cons_of_mem n hm)

theorem foldl_expandStep_closest (heu : Pos → Pos → ℚ) (endPos : Pos) (closest : Bool)
    (cur : Pos) (startPos : Pos) (startH : ℚ) :
    ∀ (ns : List Pos) (s : LoopState),
    LoopInv startPos s →
    ClosestInv startPos startH s →
    (s.graph.trans cur).closed = true →
    (∀ n ∈ ns, n ∈ s.graph.neighbors cur) →
    (∀ e ∈ (ns.foldl (expandStep heu endPos closest cur) s).relaxLog,
      ¬ BeatsStart startH e) →
    ClosestInv startPos startH (ns.foldl (expandStep heu endPos closest cur) s) := by
  intro ns
  induction ns with
  | nil => exact fun s _ h _ _ _ => h
  | cons n rest ih =>
    intro s hinv hCI hcur hns hNB
    rw [List.foldl_cons] at hNB ⊢
    have hsub : ∀ e ∈ (expandStep heu endPos closest cur s n).relaxLog,
        ¬ BeatsStart startH e := by
      obtain ⟨t, ht⟩ := foldl_expandStep_relaxLog_extends heu endPos closest cur rest
        (expandStep heu endPos closest cur s n)
      intro e he
      exact hNB e (by rw [ht]; exact List.mem_append_left _ he)
    apply ih
    · exact expandStep_loopInv heu endPos closest cur s n startPos hinv hcur
        (hns n (List.mem_cons_self n rest))
    · exact expandStep_closest heu endPos closest cur s n startPos startH hinv hCI hsub
    · rw [expandStep_closed]
      exact hcur
    · intro m hm
      rw [neighbors_congr (expandStep_grid heu endPos closest cur s n).1
        (expandStep_grid heu endPos closest cur s n).2]
      exact hns m (List.mem_cons_of_mem n hm)
    · exact hNB

theorem setClosed_visited (G : Graph) (cur p : Pos) :
    ((setClosed G cur).trans p).visited = (G.trans p).visited := by
  by_cases hp : p = cur
  · subst hp
    rw [setClosed_trans_self]
  · rw [setClosed_trans_ne _ _ hp]

theorem pop_snd_subset {α β : Type} [DecidableEq α] [LinearOrder β] (score : α → β)
    (l : List α) (x : α) (h : x ∈ (BinaryHeap.pop score l).2) : x ∈ l := by
  have h1 := pop_count_le score l x
  have h2 := List.count_pos_iff.mpr h
  exact List.count_pos_iff.mp (by omega)

theorem pop_count_le_b {α β : Type} [DecidableEq α] [inst : BEq α] [LawfulBEq α]
    [LinearOrder β] (score : α → β) (l : List α) (x : α) :
    @List.count α inst x ((BinaryHeap.pop score l).2) ≤ @List.count α inst x l := by
  rw [count_conv ((BinaryHeap.pop score l).2) x, count_conv l x]
  exact pop_count_le score l x

theorem cellsList_congr {G1 G2 : Graph} (hg : G1.grid = G2.grid) :
    cellsList G1 = cellsList G2 := by
  unfold cellsList
  rw [hg]

theorem cellsFinset_congr {G1 G2 : Graph} (hg : G1.grid = G2.grid) :
    cellsFinset G1 = cellsFinset G2 := by
  unfold cellsFinset
  rw [cellsList_congr hg]

theorem foldl_expandStep_grid (heu : Pos → Pos → ℚ) (endPos : Pos) (closest : Bool)
    (cur : Pos) :
    ∀ (ns : List Pos) (s : LoopState),
    (ns.foldl (expandStep heu endPos closest cur) s).graph.grid = s.graph.grid ∧
    (ns.foldl (expandStep heu endPos closest cur) s).graph.diagonal = s.graph.diagonal := by
  intro ns
  induction ns with
  | nil => exact fun s => ⟨rfl, rfl⟩
  | cons n rest ih =>
    intro s
    rw [List.foldl_cons]
    refine ⟨?_, ?_⟩
    · rw [(ih (expandStep heu endPos closest cur s n)).1,
        (expandStep_grid heu endPos closest cur s n).1]
    · rw [(ih (expandStep heu endPos closest cur s n)).2,
        (expandStep_grid heu endPos closest cur s n).2]

theorem getNodeCost_pos {G : Graph} (hw : NonnegWeights G) (n : Pos)
    (q : Option Pos) (hn : G.weight n ≠ 0) : 0 < AStar.getNodeCost G n q := by
  have hwp : 0 < G.weight n := lt_of_le_of_ne (hw n) (Ne.symm hn)
  unfold AStar.getNodeCost
  rcases q with _ | q
  · exact hwp
  · dsimp only []
    split
    · positivity
    · exact hwp

theorem pathOk_append (G : Graph) :
    ∀ (l : List Pos) (s p : Pos), pathOk G s l → p ∈ G.neighbors (l.getLastD s) →
      G.weight p ≠ 0 → pathOk G s (l ++ [p])
  | [], s, p, _, hnb, hwp => ⟨by simpa using hnb, hwp, trivial⟩
  | q :: rest, s, p, hok, hnb, hwp => by
    obtain ⟨h1, h2, h3⟩ := hok
    refine ⟨h1, h2, ?_⟩
    exact pathOk_append G rest q p h3 (by rwa [List.getLastD_cons] at hnb) hwp

theorem pathCost_append_single (G : Graph) :
    ∀ (l : List Pos) (s p : Pos),
      pathCost G s (l ++ [p]) = pathCost G s l +
        AStar.getNodeCost G p (some (l.getLastD s))
  | [], s, p => by
    unfold pathCost
    unfold pathCost
    simp
  | q :: rest, s, p => by
    unfold pathCost
    rw [List.cons_append]
    show AStar.getNodeCost G q (some s) + pathCost G q (rest ++ [p]) = _
    rw [pathCost_append_single G rest q p, List.getLastD_cons]
    ring

theorem getLastD_concat {α : Type} (l : List α) (a d : α) :
    (l ++ [a]).getLastD d = a := by
  rw [List.getLastD_eq_getLast?, List.getLast?_concat]
  rfl

theorem hasNode_mem_cellsList {G : Graph} {p : Pos} (h : G.hasNode p = true) :
    p ∈ cellsList G := by
  unfold Graph.hasNode cellAt at h
  split_ifs at h with hneg
  · simp at h
  · push_neg at hneg
    rcases hrow : G.grid[p.1.toNat]? with _ | row <;> rw [hrow] at h
    · cases h
    · rw [Option.isSome_iff_exists] at h
      obtain ⟨w, hw⟩ := h
      unfold cellsList
      rw [List.mem_flatMap]
      refine ⟨p.1.toNat, ?_, ?_⟩
      · rw [List.mem_range]
        exact getElem?_lt_length hrow
      · rw [List.mem_map]
        refine ⟨p.2.toNat, ?_, ?_⟩
        · rw [List.mem_range]
          have hrd : G.grid[p.1.toNat]?.getD [] = row := by
            rw [hrow]
            rfl
          rw [hrd]
          exact getElem?_lt_length hw
        · exact Prod.ext (Int.toNat_of_nonneg (by omega)) (Int.toNat_of_nonneg (by omega))


theorem hasNode_mem_cellsFinset {G : Graph} {p : Pos} (h : G.hasNode p = true) :
    p ∈ cellsFinset G := by
  unfold cellsFinset
  rw [List.mem_toFinset]
  exact hasNode_mem_cellsList h

theorem gMeasure_lt {G : Graph} {q p : Pos} (hq : q ∈ cellsFinset G)
    (hlt : (G.trans q).g < (G.trans p).g) : gMeasure G q < gMeasure G p := by
  unfold gMeasure
  have hsub : (cellsFinset G).filter (fun r => (G.trans r).g < (G.trans q).g) ⊆
      (cellsFinset G).filter (fun r => (G.trans r).g < (G.trans p).g) := by
    intro r hr
    rw [Finset.mem_filter] at hr ⊢
    exact ⟨hr.1, lt_trans hr.2 hlt⟩
  apply Finset.card_lt_card
  rw [Finset.ssubset_iff_of_subset hsub]
  refine ⟨q, ?_, ?_⟩
  · rw [Finset.mem_filter]
    exact ⟨hq, hlt⟩
  · rw [Finset.mem_filter]
    push_neg
    intro _
    exact le_refl ((G.trans q).g)

theorem gMeasure_le_card (G : Graph) (p : Pos) : gMeasure G p ≤ (cellsFinset G).card := by
  unfold gMeasure
  exact Finset.card_filter_le _ _

theorem length_cellsList_eq :
    ∀ (gl : List (List ℚ)),
      ((List.range gl.length).map (fun i => ((gl[i]?.getD []).length))).sum
        = (gl.map List.length).sum
  | [] => rfl
  | a :: t => by
    rw [List.length_cons, List.range_succ_eq_map, List.map_cons, List.map_map, List.sum_cons]
    rw [List.map_cons, List.sum_cons]
    simp only [List.getElem?_cons_zero, Option.getD_some]
    congr 1
    have hfe : ((fun (i : Nat) => (((a :: t)[i]?.getD []).length)) ∘ Nat.succ) =
        (fun (i : Nat) => ((t[i]?.getD []).length)) := by
      funext i
      simp only [Function.comp_apply, List.getElem?_cons_succ]
    rw [hfe]
    exact length_cellsList_eq t

theorem cellsList_length (G : Graph) : (cellsList G).length = cellCount G := by
  unfold cellsList cellCount
  rw [List.length_flatMap]
  have hfe : (List.length ∘ (fun (i : Nat) =>
      (List.range ((G.grid[i]?.getD []).length)).map
        (fun (j : Nat) => ((Int.ofNat i, Int.ofNat j) : Pos)))) =
      (fun (i : Nat) => ((G.grid[i]?.getD []).length)) := by
    funext i
    simp only [Function.comp_apply, List.length_map, List.length_range]
  rw [hfe]
  exact length_cellsList_eq G.grid

theorem cellsFinset_card_le (G : Graph) : (cellsFinset G).card ≤ cellCount G := by
  unfold cellsFinset
  calc (cellsList G).toFinset.card ≤ (cellsList G).length := (cellsList G).toFinset_card_le
  _ = cellCount G := cellsList_length G

theorem chain_nil {G : Graph} {startPos : Pos} (hSpar : (G.trans startPos).parent = none)
    (hSg : (G.trans startPos).g = 0) :
    (∀ fuel, AStar.pathTo G fuel startPos = some []) ∧ pathOk G startPos [] ∧
    ([] : List Pos).getLastD startPos = startPos ∧
    pathCost G startPos [] = (G.trans startPos).g := by
  refine ⟨fun fuel => pathTo_parent_none hSpar fuel, trivial, rfl, ?_⟩
  rw [hSg]
  rfl

theorem chain_single {G : Graph} {startPos p : Pos}
    (hSpar : (G.trans startPos).parent = none) (hSg : (G.trans startPos).g = 0)
    (hq1 : (G.trans p).parent = some startPos)
    (hq3 : p ∈ G.neighbors startPos) (hq4 : G.weight p ≠ 0)
    (hq5 : (G.trans p).g = (G.trans startPos).g + AStar.getNodeCost G p (some startPos)) :
    (∀ fuel, 1 ≤ fuel → AStar.pathTo G fuel p = some [p]) ∧ pathOk G startPos [p] ∧
    ([p] : List Pos).getLastD startPos = p ∧ pathCost G startPos [p] = (G.trans p).g := by
  refine ⟨?_, ⟨hq3, hq4, trivial⟩, rfl, ?_⟩
  · intro fuel hfuel
    rcases fuel with _ | f
    · omega
    · show (match (G.trans p).parent with
        | none => some []
        | some q => (AStar.pathTo G f q).map (fun l => l ++ [p])) = some [p]
      rw [hq1]
      simp only [pathTo_parent_none hSpar f, Option.map_some]
      rfl
  · show AStar.getNodeCost G p (some startPos) + pathCost G p [] = (G.trans p).g
    rw [hq5, hSg]
    show AStar.getNodeCost G p (some startPos) + 0 = _
    ring

theorem pathTo_chain {G : Graph} {startPos : Pos} (hPar : ParentInv G startPos)
    (hw : NonnegWeights G) :
    ∀ (k : Nat) (p : Pos), gMeasure G p ≤ k → VisitedOrStart G startPos p →
    ∃ l, (∀ fuel, gMeasure G p + 1 ≤ fuel → AStar.pathTo G fuel p = some l) ∧
      pathOk G startPos l ∧ l.getLastD startPos = p ∧
      pathCost G startPos l = (G.trans p).g := by
  obtain ⟨hParVis, hParClosed, hSpar, hSg, hSclosed, hSvis⟩ := hPar
  intro k
  induction k with
  | zero =>
    intro p hk hvs
    rcases hvs with hv | rfl
    · obtain ⟨q, hq1, hq2, hq3, hq4, hq5⟩ := hParVis p hv
      have hcp : 0 < AStar.getNodeCost G p (some q) := getNodeCost_pos hw p _ hq4
      have hglt : (G.trans q).g < (G.trans p).g := by
        rw [hq5]
        linarith
      rcases hParClosed q hq2 with hqv | rfl
      · obtain ⟨q2, _, _, hq3b, _, _⟩ := hParVis q hqv
        have hqcell : q ∈ cellsFinset G :=
          hasNode_mem_cellsFinset (mem_neighbors_hasNode hq3b)
        have := gMeasure_lt hqcell hglt
        omega
      · obtain ⟨hf, hok, hlast, hcost⟩ := chain_single hSpar hSg hq1 hq3 hq4 hq5
        exact ⟨[p], fun fuel hfuel => hf fuel (by omega), hok, hlast, hcost⟩
    · obtain ⟨hf, hok, hlast, hcost⟩ := chain_nil hSpar hSg
      exact ⟨[], fun fuel _ => hf fuel, hok, hlast, hcost⟩
  | succ k ih =>
    intro p hk hvs
    rcases hvs with hv | rfl
    · obtain ⟨q, hq1, hq2, hq3, hq4, hq5⟩ := hParVis p hv
      have hcp : 0 < AStar.getNodeCost G p (some q) := getNodeCost_pos hw p _ hq4
      have hglt : (G.trans q).g < (G.trans p).g := by
        rw [hq5]
        linarith
      rcases hParClosed q hq2 with hqv | rfl
      · obtain ⟨q2, _, _, hq3b, _, _⟩ := hParVis q hqv
        have hqcell : q ∈ cellsFinset G :=
          hasNode_mem_cellsFinset (mem_neighbors_hasNode hq3b)
        have hmlt := gMeasure_lt hqcell hglt
        obtain ⟨l', hf', hok', hlast', hcost'⟩ := ih q (by omega) (Or.inl hqv)
        refine ⟨l' ++ [p], ?_, ?_, getLastD_concat l' p startPos, ?_⟩
        · intro fuel hfuel
          rcases fuel with _ | f
          · omega
          · show (match (G.trans p).parent with
              | none => some []
              | some q => (AStar.pathTo G f q).map (fun l => l ++ [p])) = some (l' ++ [p])
            rw [hq1]
            show (AStar.pathTo G f q).map (fun l => l ++ [p]) = some (l' ++ [p])
            rw [hf' f (by omega)]
            rfl
        · apply pathOk_append G l' startPos p hok' _ hq4
          rw [hlast']
          exact hq3
        · rw [pathCost_append_single G l' startPos p, hlast', hcost', hq5]
      · obtain ⟨hf, hok, hlast, hcost⟩ := chain_single hSpar hSg hq1 hq3 hq4 hq5
        exact ⟨[p], fun fuel hfuel => hf fuel (by omega), hok, hlast, hcost⟩
    · obtain ⟨hf, hok, hlast, hcost⟩ := chain_nil hSpar hSg
      exact ⟨[], fun fuel _ => hf fuel, hok, hlast, hcost⟩

theorem setClosed_fields (G : Graph) (cur p : Pos) :
    ((setClosed G cur).trans p).visited = (G.trans p).visited ∧
    ((setClosed G cur).trans p).g = (G.trans p).g ∧
    ((setClosed G cur).trans p).h = (G.trans p).h ∧
    ((setClosed G cur).trans p).f = (G.trans p).f ∧
    ((setClosed G cur).trans p).parent = (G.trans p).parent := by
  by_cases hp : p = cur
  · subst hp
    rw [setClosed_trans_self]
    exact ⟨rfl, rfl, rfl, rfl, rfl⟩
  · rw [setClosed_trans_ne _ _ hp]
    exact ⟨rfl, rfl, rfl, rfl, rfl⟩

theorem setClosed_closed_mono {G : Graph} {p : Pos} (cur : Pos)
    (h : (G.trans p).closed = true) : ((setClosed G cur).trans p).closed = true := by
  by_cases hp : p = cur
  · subst hp
    rw [setClosed_trans_self]
  · rw [setClosed_trans_ne _ _ hp]
    exact h

theorem setClosed_closed_elim {G : Graph} {p : Pos} {cur : Pos}
    (h : ((setClosed G cur).trans p).closed = true) :
    p = cur ∨ (G.trans p).closed = true := by
  by_cases hp : p = cur
  · exact Or.inl hp
  · rw [setClosed_trans_ne _ _ hp] at h
    exact Or.inr h

theorem step_state_loopInv (s : LoopState) (cur : Pos) (heap1 : List Pos)
    (startPos : Pos)
    (hinv : LoopInv startPos s)
    (hmem : cur ∈ s.heap)
    (hcnt : ∀ p : Pos, heap1.count p ≤ s.heap.count p) :
    LoopInv startPos
      { s with graph := setClosed s.graph cur, heap := heap1,
               popLog := s.popLog ++ [cur] } := by
  obtain ⟨⟨hParVis, hParClosed, hSpar, hSg, hSclosed, hSvis⟩, hHeap, hPush, hHC, hPE, hDup⟩ :=
    hinv
  have hsub : ∀ p : Pos, p ∈ heap1 → p ∈ s.heap := by
    intro p hp
    have h1 := List.count_pos_iff.mpr hp
    have h2 := hcnt p
    exact List.count_pos_iff.mp (by omega)
  refine ⟨⟨?_, ?_, ?_, ?_, ?_, ?_⟩, ?_, ?_, ?_, ?_, ?_⟩
  · intro p hpvis
    rw [(setClosed_fields s.graph cur p).1] at hpvis
    obtain ⟨q, hq1, hq2, hq3, hq4, hq5⟩ := hParVis p hpvis
    refine ⟨q, ?_, setClosed_closed_mono cur hq2, ?_, hq4, ?_⟩
    · rw [(setClosed_fields s.graph cur p).2.2.2.2]
      exact hq1
    · rw [setClosed_neighbors]
      exact hq3
    · rw [(setClosed_fields s.graph cur p).2.1, (setClosed_fields s.graph cur q).2.1,
        setClosed_getNodeCost]
      exact hq5
  · intro p hpclosed
    rcases setClosed_closed_elim hpclosed with rfl | h
    · rcases hHeap p hmem with h | h
      · left
        rw [(setClosed_fields s.graph p p).1]
        exact h
      · exact Or.inr h
    · rcases hParClosed p h with h2 | h2
      · left
        rw [(setClosed_fields s.graph cur p).1]
        exact h2
      · exact Or.inr h2
  · rw [(setClosed_fields s.graph cur startPos).2.2.2.2]
    exact hSpar
  · rw [(setClosed_fields s.graph cur startPos).2.1]
    exact hSg
  · exact setClosed_closed_mono cur hSclosed
  · rw [(setClosed_fields s.graph cur startPos).1]
    exact hSvis
  · intro p hp
    rcases hHeap p (hsub p hp) with h | h
    · left
      rw [(setClosed_fields s.graph cur p).1]
      exact h
    · exact Or.inr h
  · refine ⟨hPush.1, ?_⟩
    intro p hp
    rw [(setClosed_fields s.graph cur p).1]
    exact hPush.2 p hp
  · intro p
    show heap1.count p ≤ List.count p (s.pushLog.map Prod.fst)
    have h1 := hcnt p
    have h2 := hHC p
    omega
  · exact hPE
  · exact hDup

theorem step_state_closest (s : LoopState) (cur : Pos) (heap1 : List Pos)
    (startPos : Pos) (startH : ℚ)
    (hCI : ClosestInv startPos startH s) :
    ClosestInv startPos startH
      { s with graph := setClosed s.graph cur, heap := heap1,
               popLog := s.popLog ++ [cur] } := by
  obtain ⟨⟨h1, h2, h3⟩, hc⟩ := hCI
  refine ⟨⟨?_, ?_, ?_⟩, hc⟩
  · rw [(setClosed_fields s.graph cur startPos).2.2.2.2]
    exact h1
  · rw [(setClosed_fields s.graph cur startPos).2.1]
    exact h2
  · rw [(setClosed_fields s.graph cur startPos).2.2.1]
    exact h3

theorem searchLoop_relaxLog_extends (heu : Pos → Pos → ℚ) (endPos : Pos) (closest : Bool)
    (pathFuel : Nat) :
    ∀ (fuel : Nat) (s : LoopState) (r : SearchRun),
    searchLoop heu endPos closest pathFuel fuel s = some r →
    ∃ t, r.relaxLog = s.relaxLog ++ t := by
  intro fuel
  induction fuel with
  | zero =>
    intro s r h
    cases h
  | succ fuel ih =>
    intro s r h
    rw [searchLoop] at h
    split_ifs at h with hsz hclo
    · rcases hpop : BinaryHeap.pop (fScore s.graph) s.heap with ⟨copt, heap1⟩
      rw [hpop] at h
      rcases copt with _ | cur
      · exact Option.noConfusion h
      · dsimp only [] at h
        split_ifs at h with hend
        · rcases hpa : AStar.pathTo s.graph pathFuel cur with _ | pa <;> rw [hpa] at h
          · exact Option.noConfusion h
          · refine ⟨[], ?_⟩
            rw [← Option.some.inj h, List.append_nil]
        · obtain ⟨t2, ht2⟩ := ih _ r h
          obtain ⟨t1, ht1⟩ := foldl_expandStep_relaxLog_extends heu endPos closest cur
            ((setClosed s.graph cur).neighbors cur)
            { s with graph := setClosed s.graph cur, heap := heap1,
                     popLog := s.popLog ++ [cur] }
          refine ⟨t1 ++ t2, ?_⟩
          rw [ht2, ht1]
          show s.relaxLog ++ t1 ++ t2 = s.relaxLog ++ (t1 ++ t2)
          rw [List.append_assoc]
    · rcases hpa : AStar.pathTo s.graph pathFuel s.closestNode with _ | pa <;> rw [hpa] at h
      · exact Option.noConfusion h
      · refine ⟨[], ?_⟩
        rw [← Option.some.inj h, List.append_nil]
    · refine ⟨[], ?_⟩
      rw [← Option.some.inj h, List.append_nil]

theorem pushInv_le_one {G : Graph} {startPos : Pos} {log : List (Pos × Bool × Bool)}
    (h : PushInv G startPos log) :
    ∀ p, List.count p (log.map Prod.fst) ≤ 1 := by
  intro p
  by_cases hp : p = startPos
  · subst hp
    exact h.1
  · rw [h.2 p hp]
    split <;> omega

theorem searchLoop_master (heu : Pos → Pos → ℚ) (endPos : Pos) (closest : Bool)
    (pathFuel : Nat) (startPos : Pos) :
    ∀ (fuel : Nat) (s : LoopState) (r : SearchRun),
    searchLoop heu endPos closest pathFuel fuel s = some r →
    LoopInv startPos s →
    r.graph.grid = s.graph.grid ∧
    r.dupFlag = false ∧
    PushInv r.graph startPos r.pushLog ∧
    PushEntriesOk startPos r.pushLog ∧
    (NonnegWeights s.graph → (cellsFinset s.graph).card + 1 ≤ pathFuel →
      r.found = true → pathOk r.graph startPos r.path ∧
      r.path.getLastD startPos = endPos ∧
      pathCost r.graph startPos r.path = (r.graph.trans endPos).g) := by
  intro fuel
  induction fuel with
  | zero =>
    intro s r h
    cases h
  | succ fuel ih =>
    intro s r h hinv
    rw [searchLoop] at h
    split_ifs at h with hsz hclo
    · rcases hpop : BinaryHeap.pop (fScore s.graph) s.heap with ⟨copt, heap1⟩
      rw [hpop] at h
      rcases copt with _ | cur
      · exact Option.noConfusion h
      · dsimp only [] at h
        split_ifs at h with hend
        · subst hend
          have hmem := pop_fst_mem hpop
          have hvs := hinv.2.1 cur hmem
          rcases hpa : AStar.pathTo s.graph pathFuel cur with _ | pa <;> rw [hpa] at h
          · exact Option.noConfusion h
          · have hr := Option.some.inj h
            rw [← hr]
            refine ⟨rfl, hinv.2.2.2.2.2, hinv.2.2.1, hinv.2.2.2.2.1, ?_⟩
            intro hw hcard _
            obtain ⟨l, hf, hok, hlast, hcost⟩ :=
              pathTo_chain hinv.1 hw (gMeasure s.graph cur) cur (le_refl _) hvs
            have hfuel2 : gMeasure s.graph cur + 1 ≤ pathFuel := by
              have := gMeasure_le_card s.graph cur
              omega
            have hpa2 : pa = l := by
              rw [hf pathFuel hfuel2] at hpa
              exact (Option.some.inj hpa).symm
            subst hpa2
            exact ⟨hok, hlast, hcost⟩
        · have hmem := pop_fst_mem hpop
          have hcnt : ∀ p : Pos, heap1.count p ≤ s.heap.count p := by
            intro p
            have hple := pop_count_le_b (fScore s.graph) s.heap p
            rwa [hpop] at hple
          have hinv1 := step_state_loopInv s cur heap1 startPos hinv hmem hcnt
          have hcur1 : (((setClosed s.graph cur)).trans cur).closed = true := by
            rw [setClosed_trans_self]
          have hinv2 := foldl_expandStep_loopInv heu endPos closest cur startPos
            ((setClosed s.graph cur).neighbors cur)
            { s with graph := setClosed s.graph cur, heap := heap1,
                     popLog := s.popLog ++ [cur] }
            hinv1 hcur1 (fun n hn => hn)
          have hg2 : (List.foldl (expandStep heu endPos closest cur)
              { s with graph := setClosed s.graph cur, heap := heap1,
                       popLog := s.popLog ++ [cur] }
              ((setClosed s.graph cur).neighbors cur)).graph.grid = s.graph.grid :=
            (foldl_expandStep_grid heu endPos closest cur
              ((setClosed s.graph cur).neighbors cur) _).1
          obtain ⟨hga, hdup2, hpi2, hpe2, hfound2⟩ := ih _ r h hinv2
          refine ⟨hga.trans hg2, hdup2, hpi2, hpe2, ?_⟩
          intro hw hcard
          exact hfound2 (fun p => by rw [weight_congr hg2]; exact hw p)
            (by rw [cellsFinset_congr hg2]; exact hcard)
    · rcases hpa : AStar.pathTo s.graph pathFuel s.closestNode with _ | pa <;> rw [hpa] at h
      · exact Option.noConfusion h
      · have hr := Option.some.inj h
        rw [← hr]
        refine ⟨rfl, hinv.2.2.2.2.2, hinv.2.2.1, hinv.2.2.2.2.1, ?_⟩
        intro _ _ hfound
        exact absurd hfound (by simp)
    · have hr := Option.some.inj h
      rw [← hr]
      refine ⟨rfl, hinv.2.2.2.2.2, hinv.2.2.1, hinv.2.2.2.2.1, ?_⟩
      intro _ _ hfound
      exact absurd hfound (by simp)

theorem searchLoop_closest_master (heu : Pos → Pos → ℚ) (endPos : Pos)
    (pathFuel : Nat) (startPos : Pos) (startH : ℚ) :
    ∀ (fuel : Nat) (s : LoopState) (r : SearchRun),
    searchLoop heu endPos true pathFuel fuel s = some r →
    LoopInv startPos s →
    ClosestInv startPos startH s →
    (∀ e ∈ r.relaxLog, ¬ BeatsStart startH e) →
    (r.found = false → r.path = []) := by
  intro fuel
  induction fuel with
  | zero =>
    intro s r h
    cases h
  | succ fuel ih =>
    intro s r h hinv hCI hNB
    rw [searchLoop] at h
    split_ifs at h with hsz hclo
    · rcases hpop : BinaryHeap.pop (fScore s.graph) s.heap with ⟨copt, heap1⟩
      rw [hpop] at h
      rcases copt with _ | cur
      · exact Option.noConfusion h
      · dsimp only [] at h
        split_ifs at h with hend
        · rcases hpa : AStar.pathTo s.graph pathFuel cur with _ | pa <;> rw [hpa] at h
          · exact Option.noConfusion h
          · have hr := Option.some.inj h
            rw [← hr]
            intro hfound
            exact absurd hfound (by simp)
        · have hmem := pop_fst_mem hpop
          have hcnt : ∀ p : Pos, heap1.count p ≤ s.heap.count p := by
            intro p
            have hple := pop_count_le_b (fScore s.graph) s.heap p
            rwa [hpop] at hple
          have hinv1 := step_state_loopInv s cur heap1 startPos hinv hmem hcnt
          have hCI1 := step_state_closest s cur heap1 startPos startH hCI
          have hcur1 : (((setClosed s.graph cur)).trans cur).closed = true := by
            rw [setClosed_trans_self]
          obtain ⟨t, ht⟩ := searchLoop_relaxLog_extends heu endPos true pathFuel fuel _ r h
          have hNB2 : ∀ e ∈ (List.foldl (expandStep heu endPos true cur)
              { s with graph := setClosed s.graph cur, heap := heap1,
                       popLog := s.popLog ++ [cur] }
              ((setClosed s.graph cur).neighbors cur)).relaxLog,
              ¬ BeatsStart startH e := by
            intro e he
            apply hNB
            rw [ht]
            exact List.mem_append_left _ he
          have hCI2 := foldl_expandStep_closest heu endPos true cur startPos startH
            ((setClosed s.graph cur).neighbors cur)
            { s with graph := setClosed s.graph cur, heap := heap1,
                     popLog := s.popLog ++ [cur] }
            hinv1 hCI1 hcur1 (fun n hn => hn) hNB2
          have hinv2 := foldl_expandStep_loopInv heu endPos true cur startPos
            ((setClosed s.graph cur).neighbors cur)
            { s with graph := setClosed s.graph cur, heap := heap1,
                     popLog := s.popLog ++ [cur] }
            hinv1 hcur1 (fun n hn => hn)
          exact ih _ r h hinv2 hCI2 hNB
    · rcases hpa : AStar.pathTo s.graph pathFuel s.closestNode with _ | pa <;> rw [hpa] at h
      · exact Option.noConfusion h
      · have hcn : s.closestNode = startPos := hCI.2
        have hpar : (s.graph.trans startPos).parent = none := hCI.1.1
        rw [hcn, pathTo_parent_none hpar pathFuel] at hpa
        have hpa2 := Option.some.inj hpa
        have hr := Option.some.inj h
        rw [← hr]
        intro _
        show pa = []
        exact hpa2.symm
    · exact absurd rfl hclo

theorem foldl_cleanNode_static :
    ∀ (d : List Pos) (G : Graph), (d.foldl AStar.cleanNode G).grid = G.grid ∧
      (d.foldl AStar.cleanNode G).diagonal = G.diagonal
  | [], _ => ⟨rfl, rfl⟩
  | p :: rest, G => foldl_cleanNode_static rest (AStar.cleanNode G p)

theorem cleanDirty_grid (G : Graph) : (G.cleanDirty).grid = G.grid :=
  (foldl_cleanNode_static G.dirtyNodes G).1

theorem search_setup (G : Graph) (start endPos : Pos) (closest : Bool)
    (heu : Pos → Pos → ℚ) (fuel : Nat) (r : SearchRun)
    (hclean : ∀ p, (G.cleanDirty).trans p = baselineNode)
    (hrun : AStar.search G start endPos closest heu (fuel + 1) = some r) :
    (start = endPos ∧ r.found = true ∧ r.path = [] ∧
      r.pushLog = [(start, false, false)] ∧ r.relaxLog = [] ∧ r.dupFlag = false ∧
      r.graph.trans endPos = { baselineNode with h := heu start endPos } ∧
      r.graph.grid = G.grid) ∨
    (start ≠ endPos ∧ ∃ s2 : LoopState,
      searchLoop heu endPos closest (cellCount G + 2) fuel s2 = some r ∧
      LoopInv start s2 ∧
      s2.graph.grid = G.grid ∧
      ((∀ e ∈ r.relaxLog, ¬ BeatsStart (heu start endPos) e) →
        ClosestInv start (heu start endPos) s2)) := by
  unfold AStar.search at hrun
  simp only [] at hrun
  set G1 := Graph.markDirty (setTrans G.cleanDirty start
    { (G.cleanDirty).trans start with h := heu start endPos }) start with hG1def
  have hG1s : G1.trans start = { baselineNode with h := heu start endPos } := by
    simp [hG1def, Graph.markDirty, setTrans, hclean start]
  have hG1o : ∀ p, p ≠ start → G1.trans p = baselineNode := by
    intro p hp
    simp [hG1def, Graph.markDirty, setTrans, hp, hclean p]
  have hvis : (G1.trans start).visited = false := by
    rw [hG1s]
    rfl
  have hpar : (G1.trans start).parent = none := by
    rw [hG1s]
    rfl
  have hG1grid : G1.grid = G.grid := cleanDirty_grid G
  rw [push_nil, hvis] at hrun
  rw [searchLoop] at hrun
  simp only [BinaryHeap.size, List.length_singleton, Nat.zero_lt_one, if_true,
    pop_singleton] at hrun
  by_cases hse : start = endPos
  · subst hse
    rw [if_pos rfl, pathTo_parent_none hpar] at hrun
    have hr := Option.some.inj hrun
    rw [← hr]
    left
    exact ⟨rfl, rfl, rfl, rfl, rfl, rfl, hG1s, hG1grid⟩
  · rw [if_neg hse] at hrun
    right
    have hvisAll : ∀ p, ((setClosed G1 start).trans p).visited = false := by
      intro p
      rw [(setClosed_fields G1 start p).1]
      by_cases hp : p = start
      · subst hp
        exact hvis
      · rw [hG1o p hp]
        rfl
    have hclosedAll : ∀ p, ((setClosed G1 start).trans p).closed = true → p = start := by
      intro p hp
      rcases setClosed_closed_elim hp with h | h
      · exact h
      · by_cases hps : p = start
        · exact hps
        · rw [hG1o p hps] at h
          cases h
    have hinv1 : LoopInv start
        { graph := setClosed G1 start, heap := ([] : List Pos), closestNode := start,
          pushLog := [(start, false, false)], popLog := [] ++ [start],
          relaxLog := [], dupFlag := false } := by
      refine ⟨⟨?_, ?_, ?_, ?_, ?_, ?_⟩, ?_, ⟨?_, ?_⟩, ?_, ?_, rfl⟩
      · intro p hp
        rw [hvisAll p] at hp
        cases hp
      · intro p hp
        exact Or.inr (hclosedAll p hp)
      · rw [(setClosed_fields G1 start start).2.2.2.2]
        exact hpar
      · rw [(setClosed_fields G1 start start).2.1, hG1s]
        rfl
      · rw [setClosed_trans_self]
      · exact hvisAll start
      · intro p hp
        cases hp
      · simp
      · intro p hp
        rw [hvisAll p]
        simp [List.count_cons, hp]
      · intro p
        simp
      · intro e he
        simp only [List.mem_singleton] at he
        subst he
        exact ⟨rfl, fun hne => absurd rfl hne⟩
    have hCI1 : ClosestInv start (heu start endPos)
        { graph := setClosed G1 start, heap := ([] : List Pos), closestNode := start,
          pushLog := [(start, false, false)], popLog := [] ++ [start],
          relaxLog := [], dupFlag := false } := by
      refine ⟨⟨?_, ?_, ?_⟩, rfl⟩
      · rw [(setClosed_fields G1 start start).2.2.2.2]
        exact hpar
      · rw [(setClosed_fields G1 start start).2.1, hG1s]
        rfl
      · rw [(setClosed_fields G1 start start).2.2.1, hG1s]
    have hcur1 : ((setClosed G1 start).trans start).closed = true := by
      rw [setClosed_trans_self]
    refine ⟨hse, _, hrun, ?_, ?_, ?_⟩
    · exact foldl_expandStep_loopInv heu endPos closest start start
        ((setClosed G1 start).neighbors start) _ hinv1 hcur1 (fun n hn => hn)
    · rw [(foldl_expandStep_grid heu endPos closest start
        ((setClosed G1 start).neighbors start) _).1]
      exact hG1grid
    · intro hNB
      obtain ⟨t, ht⟩ := searchLoop_relaxLog_extends heu endPos closest (cellCount G + 2)
        fuel _ r hrun
      have hNB2 : ∀ e ∈ (List.foldl (expandStep heu endPos closest start)
          { graph := setClosed G1 start, heap := ([] : List Pos), closestNode := start,
            pushLog := [(start, false, false)], popLog := [] ++ [start],
            relaxLog := [], dupFlag := false }
          ((setClosed G1 start).neighbors start)).relaxLog,
          ¬ BeatsStart (heu start endPos) e := by
        intro e he
        apply hNB
        rw [ht]
        exact List.mem_append_left _ he
      exact foldl_expandStep_closest heu endPos closest start start (heu start endPos)
        ((setClosed G1 start).neighbors start) _ hinv1 hCI1 hcur1 (fun n hn => hn) hNB2

/-- C1 (amended): for a search that reports success, the returned sequence is
a valid path of the graph from start to the goal (every step moves to an
in-bounds neighbor of positive weight under the configured movement model),
and its total cost, as summed by getNodeCost, equals the g value the search
recorded at the goal. Its cost is therefore at least the true minimum; the
claimed equality with the minimum is refuted by search_admissible_not_optimal. -/
theorem search_found_path_valid (G : Graph) (start endPos : Pos) (closest : Bool)
    (heu : Pos → Pos → ℚ) (fuel : Nat) (r : SearchRun)
    (hclean : ∀ p, (G.cleanDirty).trans p = baselineNode)
    (hw : NonnegWeights G)
    (hrun : AStar.search G start endPos closest heu (fuel + 1) = some r)
    (hfound : r.found = true) :
    IsValidPath r.graph start endPos r.path ∧
    pathCost r.graph start r.path = (r.graph.trans endPos).g := by
  rcases search_setup G start endPos closest heu fuel r hclean hrun with
    ⟨hse, _, hpath, _, _, _, htrans, _⟩ | ⟨hse, s2, hrun2, hinv2, hgrid2, _⟩
  · subst hse
    rw [hpath, htrans]
    exact ⟨⟨trivial, rfl⟩, rfl⟩
  · obtain ⟨_, _, _, _, hfid⟩ := searchLoop_master heu endPos closest (cellCount G + 2)
      start fuel s2 r hrun2 hinv2
    have hw2 : NonnegWeights s2.graph := fun p => by
      rw [weight_congr hgrid2]
      exact hw p
    have hcard2 : (cellsFinset s2.graph).card + 1 ≤ cellCount G + 2 := by
      rw [cellsFinset_congr hgrid2]
      have := cellsFinset_card_le G
      omega
    obtain ⟨hok, hlast, hcost⟩ := hfid hw2 hcard2 hfound
    exact ⟨⟨hok, hlast⟩, hcost⟩

theorem search_found_path_valid_witness :
    ∃ r, AStar.search cexGraph (0, 0) (2, 2) false cexHeu (9 + 1) = some r ∧
      IsValidPath r.graph (0, 0) (2, 2) r.path ∧
      pathCost r.graph (0, 0) r.path = (r.graph.trans (2, 2)).g := by
  have hsome : (AStar.search cexGraph (0, 0) (2, 2) false cexHeu 10).isSome = true := by
    with_unfolding_all decide
  rcases hres : AStar.search cexGraph (0, 0) (2, 2) false cexHeu 10 with _ | r
  · rw [hres] at hsome
    cases hsome
  · have hfound : r.found = true := by
      have hmap : (AStar.search cexGraph (0, 0) (2, 2) false cexHeu 10).map
          SearchRun.found = some true := by
        with_unfolding_all decide
      rw [hres] at hmap
      exact Option.some.inj hmap
    exact ⟨r, rfl, search_found_path_valid cexGraph (0, 0) (2, 2) false cexHeu 9 r
      (fun _ => rfl) (nonnegWeights_of_grid (by decide)) hres hfound⟩

/-- C9 (amended): during one search every node enters the push log at most
once, every push happens while the node's visited flag is false, every push
other than the seed push of the start node sets the flag to true, and no
push ever happens while the node is still in the heap (the duplicate flag
stays false), so the heap never holds two entries for one node; later
improvements go through rescoreElement. The original claim's parenthetical
fails for the seed push, which leaves start.visited = false (see
search_seed_push_not_visited). -/
theorem search_push_at_most_once (G : Graph) (start endPos : Pos) (closest : Bool)
    (heu : Pos → Pos → ℚ) (fuel : Nat) (r : SearchRun)
    (hclean : ∀ p, (G.cleanDirty).trans p = baselineNode)
    (hrun : AStar.search G start endPos closest heu (fuel + 1) = some r) :
    (∀ p : Pos, List.count p (r.pushLog.map Prod.fst) ≤ 1) ∧
    PushEntriesOk start r.pushLog ∧
    r.dupFlag = false := by
  rcases search_setup G start endPos closest heu fuel r hclean hrun with
    ⟨hse, _, _, hpush, _, hdup, _, _⟩ | ⟨hse, s2, hrun2, hinv2, hgrid2, _⟩
  · rw [hpush]
    refine ⟨?_, ?_, hdup⟩
    · intro p
      by_cases hp : p = start
      · subst hp
        simp
      · simp [List.count_cons, hp]
    · intro e he
      simp only [List.mem_singleton] at he
      subst he
      exact ⟨rfl, fun hne => absurd rfl hne⟩
  · obtain ⟨_, hdup, hpi, hpe, _⟩ := searchLoop_master heu endPos closest (cellCount G + 2)
      start fuel s2 r hrun2 hinv2
    exact ⟨pushInv_le_one hpi, hpe, hdup⟩

theorem search_push_at_most_once_witness :
    ∃ r, AStar.search tinyGraph (0, 0) (0, 1) false AStar.manhattan (2 + 1) = some r ∧
      (∀ p : Pos, List.count p (r.pushLog.map Prod.fst) ≤ 1) ∧
      PushEntriesOk (0, 0) r.pushLog ∧
      r.dupFlag = false := by
  have hsome : (AStar.search tinyGraph (0, 0) (0, 1) false AStar.manhattan 3).isSome
      = true := by
    with_unfolding_all decide
  rcases hres : AStar.search tinyGraph (0, 0) (0, 1) false AStar.manhattan 3 with _ | r
  · rw [hres] at hsome
    cases hsome
  · exact ⟨r, rfl, search_push_at_most_once tinyGraph (0, 0) (0, 1) false
      AStar.manhattan 2 r (fun _ => rfl) hres⟩

/-- C9 (counterexample to the original parenthetical): the seed push of the
start node does not set its visited flag: in a concrete run the first push
log entry is (start, false, false), recording visited = false both before
and after the push, while the non-seed push of the expanded neighbor records
(neighbor, false, true). -/
theorem search_seed_push_not_visited :
    (AStar.search tinyGraph (0, 0) (0, 1) false AStar.manhattan 3).map
      SearchRun.pushLog = some [((0, 0), false, false), ((0, 1), false, true)] := by
  with_unfolding_all decide

/-- C10: with closest = true, when the run exhausts the queue without
reaching the goal and no relaxation event beats the start node (h strictly
below start's h, or equal h with g below start's 0 - e.g. when start is
walled in and no relaxation happens at all), the search returns the empty
sequence: the tracked closest node never moves off the start node. -/
theorem search_closest_stays_start (G : Graph) (start endPos : Pos)
    (heu : Pos → Pos → ℚ) (fuel : Nat) (r : SearchRun)
    (hclean : ∀ p, (G.cleanDirty).trans p = baselineNode)
    (hrun : AStar.search G start endPos true heu (fuel + 1) = some r)
    (hNB : ∀ e ∈ r.relaxLog, ¬ BeatsStart (heu start endPos) e)
    (hnf : r.found = false) :
    r.path = [] := by
  rcases search_setup G start endPos true heu fuel r hclean hrun with
    ⟨_, hfound, _⟩ | ⟨hse, s2, hrun2, hinv2, hgrid2, hCIcond⟩
  · rw [hfound] at hnf
    cases hnf
  · exact searchLoop_closest_master heu endPos (cellCount G + 2) start (heu start endPos)
      fuel s2 r hrun2 hinv2 (hCIcond hNB) hNB hnf

theorem search_closest_stays_start_witness :
    ∃ r, AStar.search walledGraph (1, 1) (0, 0) true AStar.manhattan (2 + 1) = some r ∧
      (∀ e ∈ r.relaxLog, ¬ BeatsStart (AStar.manhattan (1, 1) (0, 0)) e) ∧
      r.found = false ∧
      r.path = [] := by
  have hsome : (AStar.search walledGraph (1, 1) (0, 0) true AStar.manhattan 3).isSome
      = true := by
    with_unfolding_all decide
  rcases hres : AStar.search walledGraph (1, 1) (0, 0) true AStar.manhattan 3 with _ | r
  · rw [hres] at hsome
    cases hsome
  · have hrl : r.relaxLog = [] := by
      have hmap : (AStar.search walledGraph (1, 1) (0, 0) true AStar.manhattan 3).map
          SearchRun.relaxLog = some [] := by
        with_unfolding_all decide
      rw [hres] at hmap
      exact Option.some.inj hmap
    have hnf : r.found = false := by
      have hmap : (AStar.search walledGraph (1, 1) (0, 0) true AStar.manhattan 3).map
          SearchRun.found = some false := by
        with_unfolding_all decide
      rw [hres] at hmap
      exact Option.some.inj hmap
    have hNB : ∀ e ∈ r.relaxLog, ¬ BeatsStart (AStar.manhattan (1, 1) (0, 0)) e := by
      rw [hrl]
      intro e he
      cases he
    exact ⟨r, rfl, hNB, hnf, search_closest_stays_start walledGraph (1, 1) (0, 0)
      AStar.manhattan 2 r (fun _ => rfl) hres hNB hnf⟩
